import Mathlib

/-!
Verification of the incremental column-layout and reflow engine of
`src/columnizer.py` (class `Columnizer`).

The Python module is shallowly embedded below.  Python values that can occur
in rows are modelled by `PyVal` (strings, lists, dicts with string keys);
machine state (the mutable attributes of a `Columnizer` instance together
with the stdout lines printed so far and the pending operator input) is the
structure `Columnizer`.  Python exceptions are modelled by `PyErr`; every
operation returns its updated state paired with `Option PyErr`
(`none` = normal return).  Mutations performed before an exception is raised
persist in the returned state, as in Python.

The only unbounded recursion in the source is `_update_line` →
`_reflow_columns` → `update` → `_update_line`; it is embedded with an
explicit `fuel` that is consumed exactly when a reflow pass is entered, so
"reflow never recurses" is expressible as fuel-independence.
-/

/-- Python exception kinds that the embedded code can raise.  `fuelError` is
not a Python exception: it marks exhaustion of the reflow-recursion fuel of
the embedding. -/
inductive PyErr where
  | indexError
  | keyError
  | valueError
  | typeError
  | nameError
  | eofError
  | fuelError
deriving DecidableEq

/-- Whitespace characters recognised by Python's `str.strip` / `int` for the
ASCII range. -/
def isPySpace (ch : Char) : Bool :=
  ch = ' ' || ch = '\t' || ch = '\n' || ch = '\x0d' || ch = '\x0b' || ch = '\x0c'

/-- Python `str.lower` (character-wise lowering). -/
def pyLower (s : String) : String :=
  String.mk (s.toList.map Char.toLower)

/-- Python `str.strip()` with no argument: remove whitespace from both ends. -/
def pyStrip (s : String) : String :=
  String.mk (((s.toList.dropWhile isPySpace).reverse.dropWhile isPySpace).reverse)

/-- ASCII decimal digit test. -/
def isDigitCh (ch : Char) : Bool := '0' ≤ ch && ch ≤ '9'

/-- Tail of the digit grammar of Python `int`: `('_'? digit)*`, i.e. every
underscore must be followed by a digit. -/
def digitsTail : List Char → Bool
  | [] => true
  | '_' :: ch :: t => isDigitCh ch && digitsTail t
  | '_' :: [] => false
  | ch :: t => isDigitCh ch && digitsTail t

/-- Digit run of Python `int`: at least one digit, underscores only between
digits. -/
def digitsOk : List Char → Bool
  | [] => false
  | ch :: t => isDigitCh ch && digitsTail t

/-- Whether Python `int(s)` succeeds on string `s` (base 10): optional
surrounding whitespace, optional sign, then a digit run with optional
single underscores between digits. -/
def intParseOk (s : String) : Bool :=
  let l := s.toList.dropWhile isPySpace
  let l := (l.reverse.dropWhile isPySpace).reverse
  let l := match l with
    | '+' :: t => t
    | '-' :: t => t
    | t => t
  digitsOk l

/-- Python `str.ljust`: pad with spaces on the right to width `w`. -/
def ljust (s : String) (w : Nat) : String :=
  s ++ String.mk (List.replicate (w - s.length) ' ')

/-- Python `str.rjust`: pad with spaces on the left to width `w`. -/
def rjust (s : String) (w : Nat) : String :=
  String.mk (List.replicate (w - s.length) ' ') ++ s

/-- Python `list.index` restricted to string lists, as an option
(`none` models the `ValueError`). -/
def pyIndexOf : List String → String → Option Nat
  | [], _ => none
  | h :: t, x => if h = x then some 0 else (pyIndexOf t x).map (· + 1)

/-- Universe of Python values that rows (and row batches) are built from:
strings, lists and dicts with string keys. -/
inductive PyVal where
  | s (x : String)
  | lst (xs : List PyVal)
  | dct (kv : List (String × PyVal))

mutual

/-- Python `repr` on `PyVal`.  Model simplification: strings are always
rendered between single quotes without escaping; this is exact for strings
that contain neither quotes nor backslashes (the only values the claims
exercise `repr` through are never of this shape at all). -/
def pyRepr : PyVal → String
  | .s x => "\x27" ++ x ++ "\x27"
  | .lst xs => "[" ++ String.intercalate ", " (pyReprList xs) ++ "]"
  | .dct kv => "\x7b" ++ String.intercalate ", " (pyReprKV kv) ++ "\x7d"

/-- `repr` of every element of a list. -/
def pyReprList : List PyVal → List String
  | [] => []
  | v :: t => pyRepr v :: pyReprList t

/-- `repr` of every `key: value` pair of a dict. -/
def pyReprKV : List (String × PyVal) → List String
  | [] => []
  | p :: t => ("\x27" ++ p.1 ++ "\x27: " ++ pyRepr p.2) :: pyReprKV t

end

/-- Python `str()` on `PyVal`: identity on strings, `repr` otherwise. -/
def pyStr : PyVal → String
  | .s x => x
  | .lst xs => pyRepr (.lst xs)
  | .dct kv => pyRepr (.dct kv)

/-- Whether Python `int(v)` succeeds: string parse for strings; lists and
dicts raise `TypeError`, which the source catches exactly like the
`ValueError` of a failed string parse, so only success matters. -/
def pyIntOk : PyVal → Bool
  | .s x => intParseOk x
  | .lst _ => false
  | .dct _ => false

/-- Python subscription `v[i]` with a non-negative integer index:
a string yields its `i`-th character as a one-character string, a list its
`i`-th element (both raise `IndexError` when out of range); our dicts have
string keys, so an integer subscript raises `KeyError`. -/
def subscript : PyVal → Nat → Except PyErr PyVal
  | .s x, i =>
    match x.toList.get? i with
    | some ch => .ok (.s (String.singleton ch))
    | none => .error .indexError
  | .lst xs, i =>
    match xs.get? i with
    | some v => .ok v
    | none => .error .indexError
  | .dct _, _ => .error .keyError

/-- First value bound to `key` in an association list (Python dicts have
unique keys, so this is the dict lookup). -/
def lookupStr : List (String × PyVal) → String → Option PyVal
  | [], _ => none
  | p :: t, key => if p.1 = key then some p.2 else lookupStr t key

/-- The value the source extracts from an iterated "row" for the column with
dict key `key` and positional index `index`:
`row.get(key, '-')` when the row is a dict, `row[index]` otherwise
(lines 118–121 and 188–191 of the source, which perform the identical
lookup). -/
def rowWord (row : PyVal) (key : String) (index : Nat) : Except PyErr PyVal :=
  match row with
  | .dct kv => .ok ((lookupStr kv key).getD (.s "-"))
  | v => subscript v index

/-- Python `for x in v`: lists yield their elements, strings their
characters as one-character strings, dicts their keys. -/
def pyIterate : PyVal → List PyVal
  | .s x => x.toList.map (fun ch => .s (String.singleton ch))
  | .lst xs => xs
  | .dct kv => kv.map (fun p => .s p.1)

/-- Per-column entry of `self.column_data`: current `padding` and the
justification tag `type` (a plain string, as in the source). -/
structure ColInfo where
  padding : Nat
  type : String
deriving DecidableEq

/-- Key of the colormap dict: the source mixes string keys (category names
or literal column headers) and integer keys (column positions). -/
abbrev ColorKey := String ⊕ Nat

/-- One colormap entry: an ANSI color code and the list of lowercase words
that trigger it. -/
structure ColorEntry where
  color : String
  matchWords : List String
deriving DecidableEq

/-- Dict lookup on the colormap association list (keys are unique). -/
def colormapLookup (cm : List (ColorKey × ColorEntry)) (k : ColorKey) : Option ColorEntry :=
  match cm with
  | [] => none
  | p :: t => if p.1 = k then some p.2 else colormapLookup t k

/-- The default colormap literal of `__init__` (lines 40–65), in insertion
order. -/
def defaultColormap : List (ColorKey × ColorEntry) :=
  [ (.inl "fail", ⟨"\x1b[91m", ["fail", "failed", "error", "false", "no"]⟩)
  , (.inl "ok", ⟨"\x1b[92m", ["ok", "pass", "passed", "success", "true", "yes"]⟩)
  , (.inl "warn", ⟨"\x1b[93m", ["warn", "warning"]⟩)
  , (.inl "header", ⟨"\x1b[93m", []⟩)
  , (.inl "bold", ⟨"\x1b[1m", []⟩)
  , (.inl "end", ⟨"\x1b[0m", []⟩) ]

/-- Python `dict.update`: existing keys keep their position and receive the
new value, new keys are appended in order. -/
def dictUpdate (base upd : List (ColorKey × ColorEntry)) : List (ColorKey × ColorEntry) :=
  base.map (fun p =>
    match colormapLookup upd p.1 with
    | some v => (p.1, v)
    | none => p)
  ++ upd.filter (fun p => (colormapLookup base p.1).isNone)

/-- State of a `Columnizer` instance, together with the stdout lines printed
so far (`output`, one entry per `print` call or `input` prompt) and the
pending operator input lines (`stdin`).  `column_data` is the width/type
dict; it is modelled as a total function because the source only ever reads
it at keys drawn from `headers`, on which the dict is always defined. -/
structure Columnizer where
  colormap : List (ColorKey × ColorEntry)
  delimiter : String
  headers : List String
  headers_list : List (List String)
  column_data : String → ColInfo
  col_just : Option (List String)
  colorize_output : Bool
  message : List PyVal
  mode : String
  padding_done : Bool
  needs_reflow : Bool
  indent : Nat
  paginate : Bool
  paginate_break : Bool
  print_header : Bool
  term_height : Nat
  count : Nat
  output : List String
  stdin : List String

/-- Current padding of column key `k`. -/
def padOf (c : Columnizer) (k : String) : Nat := (c.column_data k).padding

/-- Current justification tag of column key `k`. -/
def typeOf (c : Columnizer) (k : String) : String := (c.column_data k).type

/-- `print(s)`: append one stdout line. -/
def pr (c : Columnizer) (s : String) : Columnizer :=
  { c with output := c.output ++ [s] }

/-- The `' ' * self.indent` prefix. -/
def indentStr (c : Columnizer) : String :=
  String.mk (List.replicate c.indent ' ')

/-- Overwrite the `column_data` entry of key `k`. -/
def setCol (c : Columnizer) (k : String) (v : ColInfo) : Columnizer :=
  { c with column_data := fun x => if x = k then v else c.column_data x }

/-- Python `input(prompt)`: the prompt goes to stdout, one pending operator
line is consumed and returned; an exhausted stream raises `EOFError`. -/
def pyInput (c : Columnizer) (prompt : String) : Columnizer × Except PyErr String :=
  let c1 := pr c prompt
  match c1.stdin with
  | [] => (c1, .error .eofError)
  | line :: rest => ({ c1 with stdin := rest }, .ok line)

/-- Python truthiness of `self.col_just` (line 125: `if not self.col_just`):
`None` and the empty list are falsy. -/
def colJustTruthy : Option (List String) → Bool
  | none => false
  | some l => !l.isEmpty

/-- The justification update of one `discover_padding` inner iteration
(lines 125–135): with no (truthy) `col_just`, infer `'num'`/`'str'` from an
attempted integer parse of the word; otherwise copy `self.col_just[index]`
verbatim (raising `IndexError` when the list is too short). -/
def inferStep (c : Columnizer) (key : String) (index : Nat) (word : PyVal) :
    Columnizer × Option PyErr :=
  if colJustTruthy c.col_just then
    match (c.col_just.getD []).get? index with
    | some j => (setCol c key ⟨(c.column_data key).padding, j⟩, none)
    | none => (c, some .indexError)
  else
    (setCol c key ⟨(c.column_data key).padding, if pyIntOk word then "num" else "str"⟩, none)

/-- Innermost `discover_padding` loop (`for row in message`, lines 117–135):
for each iterated row, look the word up, raise the stored padding to
`max(len(str(word)), len(str(col)), padding)` and update the justification. -/
def discoverRows (c : Columnizer) (key col : String) (index : Nat) :
    List PyVal → Columnizer × Option PyErr
  | [] => (c, none)
  | r :: rs =>
    match rowWord r key index with
    | .error e => (c, some e)
    | .ok word =>
      let c1 := setCol c key
        ⟨max (pyStr word).length (max col.length (c.column_data key).padding),
         (c.column_data key).type⟩
      match inferStep c1 key index word with
      | (c2, some e) => (c2, some e)
      | (c2, none) => discoverRows c2 key col index rs

/-- Middle `discover_padding` loop (`for index, col in enumerate(headers)`,
lines 115–135): `key = self.headers[index]` (raising `IndexError` when the
tier is longer than `self.headers`), then the row loop. -/
def discoverTierAux (c : Columnizer) (msgs : List PyVal) (index : Nat) :
    List String → Columnizer × Option PyErr
  | [] => (c, none)
  | col :: cols =>
    match c.headers.get? index with
    | none => (c, some .indexError)
    | some key =>
      match discoverRows c key col index msgs with
      | (c1, some e) => (c1, some e)
      | (c1, none) => discoverTierAux c1 msgs (index + 1) cols

/-- Outer `discover_padding` loop (`for headers in self.headers_list`,
line 114). -/
def discoverTiers (c : Columnizer) (msgs : List PyVal) :
    List (List String) → Columnizer × Option PyErr
  | [] => (c, none)
  | tier :: rest =>
    match discoverTierAux c msgs 0 tier with
    | (c1, some e) => (c1, some e)
    | (c1, none) => discoverTiers c1 msgs rest

/-- Header-piece loop of lines 140–145: justify each tier label to its
column's discovered padding (`key = self.headers[i]` may raise
`IndexError`). -/
def buildHeaderAux (c : Columnizer) (index : Nat) :
    List String → Except PyErr (List String)
  | [] => .ok []
  | col :: cols =>
    match c.headers.get? index with
    | none => .error .indexError
    | some key =>
      let cd := c.column_data key
      let piece := if cd.type = "num" then rjust col cd.padding else ljust col cd.padding
      match buildHeaderAux c (index + 1) cols with
      | .error e => .error e
      | .ok ps => .ok (piece :: ps)

/-- Header-printing phase of `discover_padding` (lines 137–154): print each
tier (optionally colorized with the `'header'` color), then one dash line as
long as the last (uncolorized) tier text; with no tiers the dash line's
variable is unbound (`NameError`). -/
def printHeaders (c : Columnizer) (tiers : List (List String))
    (lineBreak : Option String) : Columnizer × Option PyErr :=
  match tiers with
  | [] =>
    match lineBreak with
    | none => (c, some .nameError)
    | some lb => (pr c (indentStr c ++ lb), none)
  | tier :: rest =>
    match buildHeaderAux c 0 tier with
    | .error e => (c, some e)
    | .ok pieces =>
      let header := String.intercalate c.delimiter pieces
      let lb := String.mk (List.replicate header.length '-')
      match (if c.colorize_output then
               match colormapLookup c.colormap (.inl "header") with
               | some entry => Except.ok (entry.color ++ header ++ "\x1b[0m")
               | none => Except.error PyErr.keyError
             else Except.ok header) with
      | .error e => (c, some e)
      | .ok h2 => printHeaders (pr c (indentStr c ++ h2)) rest (some lb)

/-- `discover_padding` (lines 95–154).  Sets `padding_done` first; a message
that is not a list is wrapped into a one-element batch (so a dict row is
wrapped, but a positional row — itself a list — is NOT, and its cells are
then iterated as if they were rows); then the three nested discovery loops
run and, when `print_header` is set, the headers are printed. -/
def discover_padding (c : Columnizer) (message : PyVal) : Columnizer × Option PyErr :=
  let c0 := { c with padding_done := true }
  let msgs : List PyVal :=
    match message with
    | .lst xs => xs
    | v => [v]
  match discoverTiers c0 msgs c0.headers_list with
  | (c1, some e) => (c1, some e)
  | (c1, none) =>
    if c1.print_header then printHeaders c1 c1.headers_list none else (c1, none)

/-- The category-match loop of `colorize` (lines 280–282): every category
whose match list contains the current word's lowered, stripped text wraps
the word in that category's color (there is no break; later categories test
the already-wrapped word). -/
def matchLoop : String → List (ColorKey × ColorEntry) → String
  | word, [] => word
  | word, p :: rest =>
    matchLoop
      (if pyStrip (pyLower word) ∈ p.2.matchWords
       then p.2.color ++ word ++ "\x1b[0m" else word)
      rest

/-- `colorize` (lines 261–284): a colormap entry keyed by the literal column
header always wins; otherwise, if an entry is keyed by the column's
position, the source then subscripts the colormap with the column NAME,
which necessarily raises `KeyError` (the first branch just found no such
key); otherwise the category-match loop runs. -/
def colorize (c : Columnizer) (word : String) (column : String) : Except PyErr String :=
  match colormapLookup c.colormap (.inl column) with
  | some entry => .ok (entry.color ++ word ++ "\x1b[0m")
  | none =>
    match pyIndexOf c.headers column with
    | none => .error .valueError
    | some idx =>
      match colormapLookup c.colormap (.inr idx) with
      | some _ => .error .keyError
      | none => .ok (matchLoop word c.colormap)

/-- `_format_column` (lines 209–234): stringify the value; when it is wider
than the stored padding, raise the padding to its length and set
`needs_reflow`; justify by `type == 'num'`; optionally colorize. -/
def _format_column (c : Columnizer) (col : String) (message : PyVal) :
    Columnizer × Except PyErr String :=
  let word := pyStr message
  let c1 :=
    if word.length > (c.column_data col).padding then
      { setCol c col ⟨word.length, (c.column_data col).type⟩ with needs_reflow := true }
    else c
  let cd := c1.column_data col
  let msg := if cd.type = "num" then rjust word cd.padding else ljust word cd.padding
  if c1.colorize_output then
    match colorize c1 msg col with
    | .ok m => (c1, .ok m)
    | .error e => (c1, .error e)
  else (c1, .ok msg)

/-- The cell loop of `_update_line` (lines 187–192): for each header, look
the value up (dict get or positional subscript) and format it. -/
def formatRowAux (c : Columnizer) (row : PyVal) (index : Nat) :
    List String → Columnizer × Except PyErr (List String)
  | [] => (c, .ok [])
  | col :: cols =>
    match rowWord row col index with
    | .error e => (c, .error e)
    | .ok word =>
      match _format_column c col word with
      | (c1, .error e) => (c1, .error e)
      | (c1, .ok m) =>
        match formatRowAux c1 row (index + 1) cols with
        | (c2, .error e) => (c2, .error e)
        | (c2, .ok ms) => (c2, .ok (m :: ms))

/-- `_update_line` (lines 175–207), parameterized by the reflow continuation
`rf`: count and buffer the row, format every cell, and either print the
joined line (running the pagination block, whose reset clears `message` and
`padding_done` unconditionally) or, when a cell set `needs_reflow`, hand
control to `rf`. -/
def _update_lineF (rf : Columnizer → Columnizer × Option PyErr) (c : Columnizer)
    (row : PyVal) : Columnizer × Option PyErr :=
  let c0 := { c with count := c.count + 1, message := c.message ++ [row] }
  match formatRowAux c0 row 0 c0.headers with
  | (c1, .error e) => (c1, some e)
  | (c1, .ok cells) =>
    let line := indentStr c1 ++ String.intercalate c1.delimiter cells
    if c1.needs_reflow = false then
      let c2 := pr c1 line
      if c2.paginate = true ∧ c2.message.length + 7 > c2.term_height then
        match (if c2.paginate_break = true then
                 let c3 := pr c2 ("\nlines " ++
                   toString ((c2.count : Int) - (c2.term_height : Int) + 6) ++ "-" ++
                   toString c2.count ++ " ")
                 match pyInput c3 "Enter to continue, CTRL+C to quit" with
                 | (c4, .error e) => (c4, some e)
                 | (c4, .ok _) => (c4, none)
               else (c2, none)) with
        | (c5, some e) => (c5, some e)
        | (c5, none) => ({ pr c5 "" with message := [], padding_done := false }, none)
      else (c2, none)
    else
      rf c1

/-- The `for row in message: self._update_line(row)` loop of `update`
(lines 172–173). -/
def updateAllF (rf : Columnizer → Columnizer × Option PyErr) (c : Columnizer)
    (rows : List PyVal) : Columnizer × Option PyErr :=
  match rows with
  | [] => (c, none)
  | r :: rs =>
    match _update_lineF rf c r with
    | (c1, some e) => (c1, some e)
    | (c1, none) => updateAllF rf c1 rs

/-- `update` (lines 156–173), parameterized by the reflow continuation: run
discovery when `padding_done` is unset, clear `needs_reflow`, then dispatch
on the mode string — `'line'` treats the message as one row, `'all'`
iterates it, any other mode does nothing. -/
def updateF (rf : Columnizer → Columnizer × Option PyErr) (c : Columnizer)
    (message : PyVal) : Columnizer × Option PyErr :=
  match (if c.padding_done = false then discover_padding c message else (c, none)) with
  | (c1, some e) => (c1, some e)
  | (c1, none) =>
    let c2 := { c1 with needs_reflow := false }
    if c2.mode = "line" then _update_lineF rf c2 message
    else if c2.mode = "all" then updateAllF rf c2 (pyIterate message)
    else (c2, none)

/-- `_reflow_columns` (lines 236–259), parameterized by the continuation
used for any further (nested) reflow: clear the reflow and padding flags,
switch the mode to `'all'`, take the buffered rows out, print the marker
line, re-run `update` on the whole batch, and restore the original mode
(the restore is skipped when the inner `update` raises, as in the source). -/
def reflowF (rf : Columnizer → Columnizer × Option PyErr) (c : Columnizer) :
    Columnizer × Option PyErr :=
  let c1 := { c with needs_reflow := false, padding_done := false }
  let old_mode := c1.mode
  let c2 := { c1 with mode := "all" }
  let msg := c2.message
  let c3 := { c2 with message := [] }
  let c4 := pr c3 ("\n" ++ indentStr c3 ++ "Long value detected, re-flowing columns to fit\n")
  match updateF rf c4 (PyVal.lst msg) with
  | (c5, some e) => (c5, some e)
  | (c5, none) => ({ c5 with mode := old_mode }, none)

/-- The fuel discipline of the embedding: each entered reflow pass consumes
one unit, and at zero the embedding stops with `fuelError` (where the
source would recurse).  The no-nested-reflow theorem below shows one unit
always suffices. -/
def reflowGuard : Nat → Columnizer → Columnizer × Option PyErr
  | 0, c => (c, some PyErr.fuelError)
  | Nat.succ f, c => reflowF (reflowGuard f) c

/-- `update` at reflow-recursion budget `fuel`. -/
def update (fuel : Nat) : Columnizer → PyVal → Columnizer × Option PyErr :=
  updateF (reflowGuard fuel)

/-- The `'all'`-mode row loop at budget `fuel`. -/
def updateAll (fuel : Nat) : Columnizer → List PyVal → Columnizer × Option PyErr :=
  updateAllF (reflowGuard fuel)

/-- `_update_line` at budget `fuel`. -/
def _update_line (fuel : Nat) : Columnizer → PyVal → Columnizer × Option PyErr :=
  _update_lineF (reflowGuard fuel)

/-- `_reflow_columns` at budget `fuel`: the pass itself consumed the unit,
so its inner `update` runs at the same budget. -/
def _reflow_columns (fuel : Nat) : Columnizer → Columnizer × Option PyErr :=
  reflowF (reflowGuard fuel)

theorem reflowGuard_zero (c : Columnizer) :
    reflowGuard 0 c = (c, some PyErr.fuelError) := rfl

theorem reflowGuard_succ (f : Nat) (c : Columnizer) :
    reflowGuard (f + 1) c = _reflow_columns f c := rfl

theorem update_eq (fuel : Nat) (c : Columnizer) (message : PyVal) :
    update fuel c message =
      match (if c.padding_done = false then discover_padding c message else (c, none)) with
      | (c1, some e) => (c1, some e)
      | (c1, none) =>
        let c2 := { c1 with needs_reflow := false }
        if c2.mode = "line" then _update_line fuel c2 message
        else if c2.mode = "all" then updateAll fuel c2 (pyIterate message)
        else (c2, none) := rfl

theorem updateAll_nil_eq (fuel : Nat) (c : Columnizer) :
    updateAll fuel c [] = (c, none) := rfl

theorem updateAll_cons_eq (fuel : Nat) (c : Columnizer) (r : PyVal) (rs : List PyVal) :
    updateAll fuel c (r :: rs) =
      match _update_line fuel c r with
      | (c1, some e) => (c1, some e)
      | (c1, none) => updateAll fuel c1 rs := rfl

theorem _update_line_eq (fuel : Nat) (c : Columnizer) (row : PyVal) :
    _update_line fuel c row =
      (let c0 := { c with count := c.count + 1, message := c.message ++ [row] }
       match formatRowAux c0 row 0 c0.headers with
       | (c1, .error e) => (c1, some e)
       | (c1, .ok cells) =>
         let line := indentStr c1 ++ String.intercalate c1.delimiter cells
         if c1.needs_reflow = false then
           let c2 := pr c1 line
           if c2.paginate = true ∧ c2.message.length + 7 > c2.term_height then
             match (if c2.paginate_break = true then
                      let c3 := pr c2 ("\nlines " ++
                        toString ((c2.count : Int) - (c2.term_height : Int) + 6) ++ "-" ++
                        toString c2.count ++ " ")
                      match pyInput c3 "Enter to continue, CTRL+C to quit" with
                      | (c4, .error e) => (c4, some e)
                      | (c4, .ok _) => (c4, none)
                    else (c2, none)) with
             | (c5, some e) => (c5, some e)
             | (c5, none) => ({ pr c5 "" with message := [], padding_done := false }, none)
           else (c2, none)
         else
           reflowGuard fuel c1) := rfl

theorem _reflow_columns_eq (fuel : Nat) (c : Columnizer) :
    _reflow_columns fuel c =
      (let c1 := { c with needs_reflow := false, padding_done := false }
       let old_mode := c1.mode
       let c2 := { c1 with mode := "all" }
       let msg := c2.message
       let c3 := { c2 with message := [] }
       let c4 := pr c3 ("\n" ++ indentStr c3 ++ "Long value detected, re-flowing columns to fit\n")
       match update fuel c4 (PyVal.lst msg) with
       | (c5, some e) => (c5, some e)
       | (c5, none) => ({ c5 with mode := old_mode }, none)) := rfl

/-- `__init__` (lines 5–93) for a flat (single-tier) header list, i.e. the
`isinstance(headers[0], list) == False` branch: `headers_list = [headers]`.
`term_height` is passed in (the source queries the terminal and falls back
to 30), and `stdin` is the pending operator input.  `column_data` starts
every column at `base_padding` with type `'str'`. -/
def pyInitFlat (headers : List String) (base_padding : Nat) (mode : String)
    (colorizeArg : Bool) (colormapArg : List (ColorKey × ColorEntry))
    (delimiter : String) (indent : Nat) (col_just : Option (List String))
    (paginate paginate_break print_header : Bool) (term_height : Nat)
    (stdin : List String) : Columnizer :=
  { colormap := dictUpdate defaultColormap colormapArg
  , delimiter := delimiter
  , headers := headers
  , headers_list := [headers]
  , column_data := fun _ => ⟨base_padding, "str"⟩
  , col_just := col_just
  , colorize_output := colorizeArg
  , message := []
  , mode := mode
  , padding_done := false
  , needs_reflow := false
  , indent := indent
  , paginate := paginate
  , paginate_break := paginate_break
  , print_header := print_header
  , term_height := term_height
  , count := 0
  , output := []
  , stdin := stdin }

/-- Run a sequence of `update` calls, keeping the state across raised
exceptions (as a Python caller that catches and continues would see it). -/
def runSteps (fuel : Nat) (c : Columnizer) : List PyVal → Columnizer
  | [] => c
  | m :: ms => runSteps fuel (update fuel c m).1 ms

/-- Whether a sequence of `update` calls runs to completion with no
exception raised. -/
def runOk (fuel : Nat) (c : Columnizer) : List PyVal → Bool
  | [] => true
  | m :: ms =>
    match update fuel c m with
    | (c1, none) => runOk fuel c1 ms
    | (_, some _) => false

/-! ### State-shape and monotonicity lemmas for the discovery loops -/

/-- `c'` differs from `c` at most in `column_data`. -/
def SameButCols (c c' : Columnizer) : Prop :=
  ∃ f, c' = { c with column_data := f }

theorem sameButCols_refl (c : Columnizer) : SameButCols c c :=
  ⟨c.column_data, by cases c; rfl⟩

theorem sameButCols_trans {a b c : Columnizer} (h1 : SameButCols a b)
    (h2 : SameButCols b c) : SameButCols a c := by
  obtain ⟨f, rfl⟩ := h1
  obtain ⟨g, rfl⟩ := h2
  exact ⟨g, rfl⟩

theorem padOf_setCol_self (c : Columnizer) (k : String) (v : ColInfo) :
    padOf (setCol c k v) k = v.padding := by
  simp [padOf, setCol]

theorem padOf_setCol_other (c : Columnizer) (k k' : String) (v : ColInfo)
    (h : k' ≠ k) : padOf (setCol c k v) k' = padOf c k' := by
  simp [padOf, setCol, h]

theorem typeOf_setCol_self (c : Columnizer) (k : String) (v : ColInfo) :
    typeOf (setCol c k v) k = v.type := by
  simp [typeOf, setCol]

theorem typeOf_setCol_other (c : Columnizer) (k k' : String) (v : ColInfo)
    (h : k' ≠ k) : typeOf (setCol c k v) k' = typeOf c k' := by
  simp [typeOf, setCol, h]

theorem setCol_sameButCols (c : Columnizer) (k : String) (v : ColInfo) :
    SameButCols c (setCol c k v) :=
  ⟨_, rfl⟩

theorem inferStep_sameButCols (c : Columnizer) (key : String) (index : Nat) (word : PyVal) :
    SameButCols c (inferStep c key index word).1 := by
  unfold inferStep
  split
  · split
    · exact setCol_sameButCols c key _
    · exact sameButCols_refl c
  · exact setCol_sameButCols c key _

theorem inferStep_padOf (c : Columnizer) (key : String) (index : Nat) (word : PyVal)
    (k : String) : padOf (inferStep c key index word).1 k = padOf c k := by
  unfold inferStep
  split
  · split
    · by_cases h : k = key
      · subst h; simp [padOf, setCol]
      · simp [padOf, setCol, h]
    · rfl
  · by_cases h : k = key
    · subst h; simp [padOf, setCol]
    · simp [padOf, setCol, h]

theorem inferStep_typeOf_other (c : Columnizer) (key : String) (index : Nat) (word : PyVal)
    (k : String) (h : k ≠ key) : typeOf (inferStep c key index word).1 k = typeOf c k := by
  unfold inferStep
  split
  · split
    · simp [typeOf_setCol_other _ _ _ _ h]
    · rfl
  · simp [typeOf_setCol_other _ _ _ _ h]

theorem sameButCols_proj {c c' : Columnizer} (h : SameButCols c c') :
    c'.colormap = c.colormap ∧ c'.delimiter = c.delimiter ∧ c'.headers = c.headers ∧
    c'.headers_list = c.headers_list ∧ c'.col_just = c.col_just ∧
    c'.colorize_output = c.colorize_output ∧ c'.message = c.message ∧ c'.mode = c.mode ∧
    c'.padding_done = c.padding_done ∧ c'.needs_reflow = c.needs_reflow ∧
    c'.indent = c.indent ∧ c'.paginate = c.paginate ∧ c'.paginate_break = c.paginate_break ∧
    c'.print_header = c.print_header ∧ c'.term_height = c.term_height ∧
    c'.count = c.count ∧ c'.output = c.output ∧ c'.stdin = c.stdin := by
  obtain ⟨f, rfl⟩ := h
  exact ⟨rfl, rfl, rfl, rfl, rfl, rfl, rfl, rfl, rfl, rfl, rfl, rfl, rfl, rfl, rfl, rfl,
    rfl, rfl⟩

theorem discoverRows_sameButCols (key col : String) (index : Nat) :
    ∀ (rows : List PyVal) (c : Columnizer),
    SameButCols c (discoverRows c key col index rows).1 := by
  intro rows
  induction rows with
  | nil => intro c; exact sameButCols_refl c
  | cons r rs ih =>
    intro c
    unfold discoverRows
    split
    · exact sameButCols_refl c
    · rename_i word hw
      dsimp only
      have hbase : SameButCols c
          (inferStep (setCol c key ⟨max (pyStr word).length (max col.length
            (c.column_data key).padding), (c.column_data key).type⟩) key index word).1 :=
        sameButCols_trans (setCol_sameButCols _ _ _) (inferStep_sameButCols _ _ _ _)
      split
      · rename_i c2 e hinf
        rw [hinf] at hbase
        exact hbase
      · rename_i c2 hinf
        rw [hinf] at hbase
        exact sameButCols_trans hbase (ih c2)

theorem discoverRows_padOf_mono (key col : String) (index : Nat) :
    ∀ (rows : List PyVal) (c : Columnizer) (k : String),
    padOf c k ≤ padOf (discoverRows c key col index rows).1 k := by
  intro rows
  induction rows with
  | nil => intro c k; exact Nat.le_refl _
  | cons r rs ih =>
    intro c k
    unfold discoverRows
    split
    · exact Nat.le_refl _
    · rename_i word hw
      dsimp only
      have hstep : padOf c k ≤
          padOf (setCol c key ⟨max (pyStr word).length (max col.length
            (c.column_data key).padding), (c.column_data key).type⟩) k := by
        by_cases h : k = key
        · subst h
          rw [padOf_setCol_self]
          exact Nat.le_trans (Nat.le_max_right _ _) (Nat.le_max_right _ _)
        · rw [padOf_setCol_other _ _ _ _ h]
      have h2 := inferStep_padOf (setCol c key ⟨max (pyStr word).length (max col.length
          (c.column_data key).padding), (c.column_data key).type⟩) key index word k
      split
      · rename_i c2 e hinf
        rw [hinf] at h2
        exact le_trans hstep h2.symm.le
      · rename_i c2 hinf
        rw [hinf] at h2
        calc padOf c k ≤ _ := hstep
          _ = padOf c2 k := h2.symm
          _ ≤ _ := ih c2 k

theorem inferStep_infer_eq (c : Columnizer) (key : String) (index : Nat) (word : PyVal)
    (h : colJustTruthy c.col_just = false) :
    inferStep c key index word =
      (setCol c key ⟨(c.column_data key).padding,
        if pyIntOk word then "num" else "str"⟩, none) := by
  unfold inferStep
  rw [h]
  simp

theorem inferStep_just_eq (c : Columnizer) (key : String) (index : Nat) (word : PyVal)
    (j : String) (h : colJustTruthy c.col_just = true)
    (hj : (c.col_just.getD []).get? index = some j) :
    inferStep c key index word =
      (setCol c key ⟨(c.column_data key).padding, j⟩, none) := by
  unfold inferStep
  rw [h, hj]
  simp

theorem discoverRows_typeOf_other (key col : String) (index : Nat) :
    ∀ (rows : List PyVal) (c : Columnizer) (k : String), k ≠ key →
    typeOf (discoverRows c key col index rows).1 k = typeOf c k := by
  intro rows
  induction rows with
  | nil => intro c k _; rfl
  | cons r rs ih =>
    intro c k hk
    unfold discoverRows
    split
    · rfl
    · rename_i word hw
      dsimp only
      have hbase : typeOf (inferStep (setCol c key ⟨max (pyStr word).length (max col.length
          (c.column_data key).padding), (c.column_data key).type⟩) key index word).1 k
          = typeOf c k := by
        rw [inferStep_typeOf_other _ _ _ _ _ hk, typeOf_setCol_other _ _ _ _ hk]
      split
      · rename_i c2 e hinf
        rw [hinf] at hbase
        exact hbase
      · rename_i c2 hinf
        rw [hinf] at hbase
        rw [ih c2 k hk, hbase]

theorem discoverRows_cover (key col : String) (index : Nat) :
    ∀ (rows : List PyVal) (c c' : Columnizer),
    discoverRows c key col index rows = (c', none) →
    ∀ r ∈ rows, ∃ w, rowWord r key index = Except.ok w ∧
      (pyStr w).length ≤ padOf c' key := by
  intro rows
  induction rows with
  | nil => intro c c' _ r hr; cases hr
  | cons r rs ih =>
    intro c c' h r' hr'
    unfold discoverRows at h
    split at h
    · simp at h
    · rename_i word hw
      dsimp only at h
      split at h
      · simp at h
      · rename_i c2 hinf
        rcases List.mem_cons.mp hr' with h1 | h1
        · subst h1
          refine ⟨word, hw, ?_⟩
          have hpad : (pyStr word).length ≤ padOf c2 key := by
            have hp := inferStep_padOf (setCol c key ⟨max (pyStr word).length
              (max col.length (c.column_data key).padding), (c.column_data key).type⟩)
              key index word key
            rw [hinf] at hp
            rw [hp, padOf_setCol_self]
            exact Nat.le_max_left _ _
          have hmono := discoverRows_padOf_mono key col index rs c2 key
          rw [h] at hmono
          exact le_trans hpad hmono
        · exact ih c2 c' h r' h1

theorem discoverRows_label (key col : String) (index : Nat) :
    ∀ (rows : List PyVal) (c c' : Columnizer), rows ≠ [] →
    discoverRows c key col index rows = (c', none) →
    col.length ≤ padOf c' key := by
  intro rows
  induction rows with
  | nil => intro c c' h _; exact absurd rfl h
  | cons r rs ih =>
    intro c c' _ h
    unfold discoverRows at h
    split at h
    · simp at h
    · rename_i word hw
      dsimp only at h
      split at h
      · simp at h
      · rename_i c2 hinf
        have hpad : col.length ≤ padOf c2 key := by
          have hp := inferStep_padOf (setCol c key ⟨max (pyStr word).length
            (max col.length (c.column_data key).padding), (c.column_data key).type⟩)
            key index word key
          rw [hinf] at hp
          rw [hp, padOf_setCol_self]
          exact le_trans (Nat.le_max_left _ _) (Nat.le_max_right _ _)
        have hmono := discoverRows_padOf_mono key col index rs c2 key
        rw [h] at hmono
        exact le_trans hpad hmono

theorem setCol_col_just (c : Columnizer) (k : String) (v : ColInfo) :
    (setCol c k v).col_just = c.col_just := rfl

theorem discoverRows_type_infer (key col : String) (index : Nat) :
    ∀ (rows : List PyVal) (c c' : Columnizer),
    colJustTruthy c.col_just = false →
    discoverRows c key col index rows = (c', none) →
    ∀ rl ∈ rows.getLast?, ∀ w, rowWord rl key index = Except.ok w →
    typeOf c' key = (if pyIntOk w then "num" else "str") := by
  intro rows
  induction rows with
  | nil => intro c c' _ _ rl hrl; cases hrl
  | cons r rs ih =>
    intro c c' hcj h rl hrl w hww
    unfold discoverRows at h
    split at h
    · simp at h
    · rename_i word hw
      dsimp only at h
      have hcj1 : colJustTruthy (setCol c key ⟨max (pyStr word).length (max col.length
          (c.column_data key).padding), (c.column_data key).type⟩).col_just = false := by
        rw [setCol_col_just]; exact hcj
      rw [inferStep_infer_eq _ _ _ _ hcj1] at h
      dsimp only at h
      cases rs with
      | nil =>
        unfold discoverRows at h
        simp only [Prod.mk.injEq, and_true] at h
        have hrl2 : rl = r := by
          simp [List.getLast?] at hrl
          exact hrl.symm
        subst hrl2
        have hwword : w = word := by
          rw [hw] at hww
          cases hww
          rfl
        subst hwword
        rw [← h, typeOf_setCol_self]
      | cons r2 rs2 =>
        have hcj2 : colJustTruthy (setCol (setCol c key ⟨max (pyStr word).length
            (max col.length (c.column_data key).padding), (c.column_data key).type⟩) key
            ⟨((setCol c key ⟨max (pyStr word).length (max col.length
              (c.column_data key).padding), (c.column_data key).type⟩).column_data
              key).padding, if pyIntOk word then "num" else "str"⟩).col_just = false := by
          rw [setCol_col_just, setCol_col_just]; exact hcj
        have hrl2 : rl ∈ (r2 :: rs2).getLast? := by
          rw [List.getLast?_cons_cons] at hrl
          exact hrl
        exact ih _ c' hcj2 h rl hrl2 w hww

theorem discoverRows_type_just (key col : String) (index : Nat) :
    ∀ (rows : List PyVal) (c c' : Columnizer) (j : String),
    colJustTruthy c.col_just = true →
    (c.col_just.getD []).get? index = some j →
    rows ≠ [] →
    discoverRows c key col index rows = (c', none) →
    typeOf c' key = j := by
  intro rows
  induction rows with
  | nil => intro c c' j _ _ hne; exact absurd rfl hne
  | cons r rs ih =>
    intro c c' j hcj hj _ h
    unfold discoverRows at h
    split at h
    · simp at h
    · rename_i word hw
      dsimp only at h
      have hcj1 : colJustTruthy (setCol c key ⟨max (pyStr word).length (max col.length
          (c.column_data key).padding), (c.column_data key).type⟩).col_just = true := by
        rw [setCol_col_just]; exact hcj
      have hj1 : ((setCol c key ⟨max (pyStr word).length (max col.length
          (c.column_data key).padding), (c.column_data key).type⟩).col_just.getD
          []).get? index = some j := by
        rw [setCol_col_just]; exact hj
      rw [inferStep_just_eq _ _ _ _ j hcj1 hj1] at h
      dsimp only at h
      cases rs with
      | nil =>
        unfold discoverRows at h
        simp only [Prod.mk.injEq, and_true] at h
        rw [← h, typeOf_setCol_self]
      | cons r2 rs2 =>
        have hcj2 : colJustTruthy (setCol (setCol c key ⟨max (pyStr word).length
            (max col.length (c.column_data key).padding), (c.column_data key).type⟩) key
            ⟨((setCol c key ⟨max (pyStr word).length (max col.length
              (c.column_data key).padding), (c.column_data key).type⟩).column_data
              key).padding, j⟩).col_just = true := by
          rw [setCol_col_just, setCol_col_just]; exact hcj
        have hj2 : ((setCol (setCol c key ⟨max (pyStr word).length
            (max col.length (c.column_data key).padding), (c.column_data key).type⟩) key
            ⟨((setCol c key ⟨max (pyStr word).length (max col.length
              (c.column_data key).padding), (c.column_data key).type⟩).column_data
              key).padding, j⟩).col_just.getD []).get? index = some j := by
          rw [setCol_col_just, setCol_col_just]; exact hj
        exact ih _ c' j hcj2 hj2 (by simp) h

theorem discoverTierAux_sameButCols (msgs : List PyVal) :
    ∀ (tier : List String) (c : Columnizer) (i0 : Nat),
    SameButCols c (discoverTierAux c msgs i0 tier).1 := by
  intro tier
  induction tier with
  | nil => intro c i0; exact sameButCols_refl c
  | cons col cols ih =>
    intro c i0
    unfold discoverTierAux
    split
    · exact sameButCols_refl c
    · rename_i key hkey
      split
      · rename_i c1 e hrows
        have := discoverRows_sameButCols key col i0 msgs c
        rw [hrows] at this
        exact this
      · rename_i c1 hrows
        have h1 := discoverRows_sameButCols key col i0 msgs c
        rw [hrows] at h1
        exact sameButCols_trans h1 (ih c1 (i0 + 1))

theorem discoverTierAux_padOf_mono (msgs : List PyVal) :
    ∀ (tier : List String) (c : Columnizer) (i0 : Nat) (k : String),
    padOf c k ≤ padOf (discoverTierAux c msgs i0 tier).1 k := by
  intro tier
  induction tier with
  | nil => intro c i0 k; exact Nat.le_refl _
  | cons col cols ih =>
    intro c i0 k
    unfold discoverTierAux
    split
    · exact Nat.le_refl _
    · rename_i key hkey
      have hmono := discoverRows_padOf_mono key col i0 msgs c k
      split
      · rename_i c1 e hrows
        rw [hrows] at hmono
        exact hmono
      · rename_i c1 hrows
        rw [hrows] at hmono
        exact le_trans hmono (ih c1 (i0 + 1) k)

theorem discoverTierAux_cover (msgs : List PyVal) :
    ∀ (tier : List String) (c c' : Columnizer) (i0 : Nat),
    discoverTierAux c msgs i0 tier = (c', none) →
    ∀ j col', tier.get? j = some col' →
    ∀ key, c.headers.get? (i0 + j) = some key →
    (∀ r ∈ msgs, ∃ w, rowWord r key (i0 + j) = Except.ok w ∧
      (pyStr w).length ≤ padOf c' key) ∧
    (msgs ≠ [] → col'.length ≤ padOf c' key) := by
  intro tier
  induction tier with
  | nil => intro c c' i0 _ j col' hj; cases hj
  | cons col cols ih =>
    intro c c' i0 h j col' hj key hkey
    unfold discoverTierAux at h
    split at h
    · simp at h
    · rename_i key0 hkey0
      split at h
      · simp at h
      · rename_i c1 hrows
        cases j with
        | zero =>
          have hcol : col = col' := by
            simp [List.get?] at hj
            exact hj
          subst hcol
          have hkeyeq : key = key0 := by
            rw [Nat.add_zero] at hkey
            rw [hkey0] at hkey
            cases hkey
            rfl
          subst hkeyeq
          have hmono := discoverTierAux_padOf_mono msgs cols c1 (i0 + 1) key
          rw [h] at hmono
          constructor
          · intro r hr
            obtain ⟨w, hw, hlen⟩ := discoverRows_cover key col i0 msgs c c1 hrows r hr
            rw [Nat.add_zero]
            exact ⟨w, hw, le_trans hlen hmono⟩
          · intro hne
            exact le_trans (discoverRows_label key col i0 msgs c c1 hne hrows) hmono
        | succ j' =>
          have hheaders : c1.headers = c.headers :=
            (sameButCols_proj (by
              have := discoverRows_sameButCols key0 col i0 msgs c
              rw [hrows] at this
              exact this)).2.2.1
          have hkey1 : c1.headers.get? ((i0 + 1) + j') = some key := by
            rw [hheaders]
            have : (i0 + 1) + j' = i0 + (j' + 1) := by omega
            rw [this]
            exact hkey
          have hj1 : cols.get? j' = some col' := by
            simpa [List.get?] using hj
          have harith : i0 + (j' + 1) = (i0 + 1) + j' := by omega
          rw [harith]
          exact ih c1 c' (i0 + 1) h j' col' hj1 key hkey1

theorem discoverTierAux_typeOf_preserve (msgs : List PyVal) :
    ∀ (tier : List String) (c : Columnizer) (i0 : Nat) (k : String),
    (∀ j key, j < tier.length → c.headers.get? (i0 + j) = some key → key ≠ k) →
    typeOf (discoverTierAux c msgs i0 tier).1 k = typeOf c k := by
  intro tier
  induction tier with
  | nil => intro c i0 k _; rfl
  | cons col cols ih =>
    intro c i0 k hk
    unfold discoverTierAux
    split
    · rfl
    · rename_i key0 hkey0
      have hk0 : key0 ≠ k := by
        refine hk 0 key0 (by simp) ?_
        rw [Nat.add_zero]
        exact hkey0
      have hother := discoverRows_typeOf_other key0 col i0 msgs c k (Ne.symm hk0)
      split
      · rename_i c1 e hrows
        rw [hrows] at hother
        exact hother
      · rename_i c1 hrows
        rw [hrows] at hother
        have hheaders : c1.headers = c.headers := by
          have hs := discoverRows_sameButCols key0 col i0 msgs c
          rw [hrows] at hs
          exact (sameButCols_proj hs).2.2.1
        have hk1 : ∀ j key, j < cols.length → c1.headers.get? ((i0 + 1) + j) = some key →
            key ≠ k := by
          intro j key hj hkey
          refine hk (j + 1) key (by simpa using Nat.succ_lt_succ hj) ?_
          rw [hheaders] at hkey
          have : i0 + (j + 1) = (i0 + 1) + j := by omega
          rw [this]
          exact hkey
        rw [ih c1 (i0 + 1) k hk1, hother]

theorem discoverTierAux_type_infer (msgs : List PyVal) :
    ∀ (tier : List String) (c c' : Columnizer) (i0 : Nat),
    discoverTierAux c msgs i0 tier = (c', none) →
    colJustTruthy c.col_just = false →
    (∀ j, tier.get? j = c.headers.get? (i0 + j)) →
    c.headers.Nodup →
    ∀ j key, tier.get? j = some key →
    ∀ rl ∈ msgs.getLast?, ∀ w, rowWord rl key (i0 + j) = Except.ok w →
    typeOf c' key = (if pyIntOk w then "num" else "str") := by
  intro tier
  induction tier with
  | nil => intro c c' i0 _ _ _ _ j key hj; cases hj
  | cons col cols ih =>
    intro c c' i0 h hcj halign hnodup j key hj rl hrl w hww
    unfold discoverTierAux at h
    split at h
    · simp at h
    · rename_i key0 hkey0
      split at h
      · simp at h
      · rename_i c1 hrows
        have hs := discoverRows_sameButCols key0 col i0 msgs c
        rw [hrows] at hs
        have hproj := sameButCols_proj hs
        cases j with
        | zero =>
          have hkeyeq : key = key0 := by
            have h0 := halign 0
            rw [hj] at h0
            rw [Nat.add_zero] at h0
            rw [hkey0] at h0
            cases h0
            rfl
          subst hkeyeq
          have htype := discoverRows_type_infer key col i0 msgs c c1 hcj hrows rl hrl w
            (by rw [Nat.add_zero] at hww; exact hww)
          have hpres : typeOf c' key = typeOf c1 key := by
            have hk1 : ∀ j2 key2, j2 < cols.length →
                c1.headers.get? ((i0 + 1) + j2) = some key2 → key2 ≠ key := by
              intro j2 key2 hj2 hkey2
              intro heq
              subst heq
              rw [hproj.2.2.1] at hkey2
              have hi1 : c.headers.get? (i0 + 0) = some key2 := by
                rw [Nat.add_zero]; exact hkey0
              have hlt : i0 + 0 < c.headers.length := by
                rcases List.get?_eq_some.mp hi1 with ⟨hh, -⟩
                exact hh
              have : i0 + 0 = (i0 + 1) + j2 := by
                apply List.get?_inj hlt hnodup
                rw [hi1, hkey2]
              omega
            have := discoverTierAux_typeOf_preserve msgs cols c1 (i0 + 1) key hk1
            rw [h] at this
            exact this
          rw [hpres, htype]
        | succ j' =>
          have hcj1 : colJustTruthy c1.col_just = false := by
            rw [hproj.2.2.2.2.1]; exact hcj
          have halign1 : ∀ j2, cols.get? j2 = c1.headers.get? ((i0 + 1) + j2) := by
            intro j2
            rw [hproj.2.2.1]
            have := halign (j2 + 1)
            have harith : i0 + (j2 + 1) = (i0 + 1) + j2 := by omega
            rw [harith] at this
            simpa [List.get?] using this
          have hnodup1 : c1.headers.Nodup := by
            rw [hproj.2.2.1]; exact hnodup
          have hj1 : cols.get? j' = some key := by
            simpa [List.get?] using hj
          have harith : i0 + (j' + 1) = (i0 + 1) + j' := by omega
          rw [harith] at hww
          exact ih c1 c' (i0 + 1) h hcj1 halign1 hnodup1 j' key hj1 rl hrl w hww

theorem discoverTierAux_type_just (msgs : List PyVal) :
    ∀ (tier : List String) (c c' : Columnizer) (i0 : Nat),
    discoverTierAux c msgs i0 tier = (c', none) →
    colJustTruthy c.col_just = true →
    (∀ j, tier.get? j = c.headers.get? (i0 + j)) →
    c.headers.Nodup →
    msgs ≠ [] →
    ∀ j key, tier.get? j = some key →
    ∀ jv, (c.col_just.getD []).get? (i0 + j) = some jv →
    typeOf c' key = jv := by
  intro tier
  induction tier with
  | nil => intro c c' i0 _ _ _ _ _ j key hj; cases hj
  | cons col cols ih =>
    intro c c' i0 h hcj halign hnodup hne j key hj jv hjv
    unfold discoverTierAux at h
    split at h
    · simp at h
    · rename_i key0 hkey0
      split at h
      · simp at h
      · rename_i c1 hrows
        have hs := discoverRows_sameButCols key0 col i0 msgs c
        rw [hrows] at hs
        have hproj := sameButCols_proj hs
        cases j with
        | zero =>
          have hkeyeq : key = key0 := by
            have h0 := halign 0
            rw [hj] at h0
            rw [Nat.add_zero] at h0
            rw [hkey0] at h0
            cases h0
            rfl
          subst hkeyeq
          have htype := discoverRows_type_just key col i0 msgs c c1 jv hcj
            (by rw [Nat.add_zero] at hjv; exact hjv) hne hrows
          have hpres : typeOf c' key = typeOf c1 key := by
            have hk1 : ∀ j2 key2, j2 < cols.length →
                c1.headers.get? ((i0 + 1) + j2) = some key2 → key2 ≠ key := by
              intro j2 key2 hj2 hkey2
              intro heq
              subst heq
              rw [hproj.2.2.1] at hkey2
              have hi1 : c.headers.get? (i0 + 0) = some key2 := by
                rw [Nat.add_zero]; exact hkey0
              have hlt : i0 + 0 < c.headers.length := by
                rcases List.get?_eq_some.mp hi1 with ⟨hh, -⟩
                exact hh
              have : i0 + 0 = (i0 + 1) + j2 := by
                apply List.get?_inj hlt hnodup
                rw [hi1, hkey2]
              omega
            have := discoverTierAux_typeOf_preserve msgs cols c1 (i0 + 1) key hk1
            rw [h] at this
            exact this
          rw [hpres, htype]
        | succ j' =>
          have hcj1 : colJustTruthy c1.col_just = true := by
            rw [hproj.2.2.2.2.1]; exact hcj
          have halign1 : ∀ j2, cols.get? j2 = c1.headers.get? ((i0 + 1) + j2) := by
            intro j2
            rw [hproj.2.2.1]
            have := halign (j2 + 1)
            have harith : i0 + (j2 + 1) = (i0 + 1) + j2 := by omega
            rw [harith] at this
            simpa [List.get?] using this
          have hnodup1 : c1.headers.Nodup := by
            rw [hproj.2.2.1]; exact hnodup
          have hj1 : cols.get? j' = some key := by
            simpa [List.get?] using hj
          have hjv1 : (c1.col_just.getD []).get? ((i0 + 1) + j') = some jv := by
            rw [hproj.2.2.2.2.1]
            have harith : i0 + (j' + 1) = (i0 + 1) + j' := by omega
            rw [← harith]
            exact hjv
          exact ih c1 c' (i0 + 1) h hcj1 halign1 hnodup1 hne j' key hj1 jv hjv1

theorem discoverTiers_sameButCols (msgs : List PyVal) :
    ∀ (tiers : List (List String)) (c : Columnizer),
    SameButCols c (discoverTiers c msgs tiers).1 := by
  intro tiers
  induction tiers with
  | nil => intro c; exact sameButCols_refl c
  | cons tier rest ih =>
    intro c
    unfold discoverTiers
    have h1 := discoverTierAux_sameButCols msgs tier c 0
    split
    · rename_i c1 e haux
      rw [haux] at h1
      exact h1
    · rename_i c1 haux
      rw [haux] at h1
      exact sameButCols_trans h1 (ih c1)

theorem discoverTiers_padOf_mono (msgs : List PyVal) :
    ∀ (tiers : List (List String)) (c : Columnizer) (k : String),
    padOf c k ≤ padOf (discoverTiers c msgs tiers).1 k := by
  intro tiers
  induction tiers with
  | nil => intro c k; exact Nat.le_refl _
  | cons tier rest ih =>
    intro c k
    unfold discoverTiers
    have h1 := discoverTierAux_padOf_mono msgs tier c 0 k
    split
    · rename_i c1 e haux
      rw [haux] at h1
      exact h1
    · rename_i c1 haux
      rw [haux] at h1
      exact le_trans h1 (ih c1 k)

theorem discoverTiers_cover (msgs : List PyVal) :
    ∀ (tiers : List (List String)) (c c' : Columnizer),
    discoverTiers c msgs tiers = (c', none) →
    c.headers ∈ tiers →
    (∀ r ∈ msgs, ∀ i key, c.headers.get? i = some key →
      ∃ w, rowWord r key i = Except.ok w ∧ (pyStr w).length ≤ padOf c' key) ∧
    (msgs ≠ [] → ∀ i key, c.headers.get? i = some key → key.length ≤ padOf c' key) := by
  intro tiers
  induction tiers with
  | nil => intro c c' _ hmem; cases hmem
  | cons tier rest ih =>
    intro c c' h hmem
    unfold discoverTiers at h
    split at h
    · simp at h
    · rename_i c1 haux
      have hmono := discoverTiers_padOf_mono msgs rest c1
      rw [h] at hmono
      rcases List.mem_cons.mp hmem with heq | hmem'
      · subst heq
        constructor
        · intro r hr i key hkey
          obtain ⟨hcov, -⟩ := discoverTierAux_cover msgs c.headers c c1 0 haux i key hkey
            key (by rw [Nat.zero_add]; exact hkey)
          obtain ⟨w, hw, hlen⟩ := hcov r hr
          rw [Nat.zero_add] at hw
          exact ⟨w, hw, le_trans hlen (hmono key)⟩
        · intro hne i key hkey
          obtain ⟨-, hlab⟩ := discoverTierAux_cover msgs c.headers c c1 0 haux i key hkey
            key (by rw [Nat.zero_add]; exact hkey)
          exact le_trans (hlab hne) (hmono key)
      · have hs := discoverTierAux_sameButCols msgs tier c 0
        rw [haux] at hs
        have hheaders : c1.headers = c.headers := (sameButCols_proj hs).2.2.1
        have := ih c1 c' h (by rw [hheaders]; exact hmem')
        rw [hheaders] at this
        exact this

theorem printHeaders_shape :
    ∀ (tiers : List (List String)) (c : Columnizer) (lb : Option String),
    ∃ extra, (printHeaders c tiers lb).1 = { c with output := c.output ++ extra } := by
  intro tiers
  induction tiers with
  | nil =>
    intro c lb
    cases lb with
    | none => exact ⟨[], by cases c; simp [printHeaders]⟩
    | some s => exact ⟨[indentStr c ++ s], by cases c; simp [printHeaders, pr]⟩
  | cons tier rest ih =>
    intro c lb
    unfold printHeaders
    split
    · exact ⟨[], by cases c; simp⟩
    · rename_i pieces hpieces
      dsimp only
      split
      · exact ⟨[], by cases c; simp⟩
      · rename_i h2 hh2
        obtain ⟨extra, hextra⟩ := ih (pr c (indentStr c ++ h2)) (some
          (String.mk (List.replicate (String.intercalate c.delimiter pieces).length '-')))
        refine ⟨(indentStr c ++ h2) :: extra, ?_⟩
        rw [hextra]
        cases c
        simp [pr]

/-- The row batch `discover_padding` iterates over: the message itself when
it is a list, else the message wrapped in a singleton batch
(lines 106–110). -/
def msgRows (message : PyVal) : List PyVal :=
  match message with
  | .lst xs => xs
  | v => [v]

theorem discover_padding_eq (c : Columnizer) (message : PyVal) :
    discover_padding c message =
      match discoverTiers { c with padding_done := true } (msgRows message)
          c.headers_list with
      | (c1, some e) => (c1, some e)
      | (c1, none) =>
        if c1.print_header then printHeaders c1 c1.headers_list none else (c1, none) := by
  cases message <;> rfl

theorem printHeaders_column_data (tiers : List (List String)) (c : Columnizer)
    (lb : Option String) :
    (printHeaders c tiers lb).1.column_data = c.column_data := by
  obtain ⟨extra, hx⟩ := printHeaders_shape tiers c lb
  rw [hx]

theorem discover_padding_padOf_mono (c : Columnizer) (message : PyVal) (k : String) :
    padOf c k ≤ padOf (discover_padding c message).1 k := by
  rw [discover_padding_eq]
  have hmono := discoverTiers_padOf_mono (msgRows message) c.headers_list
    { c with padding_done := true } k
  split
  · rename_i c1 e htiers
    rw [htiers] at hmono
    exact hmono
  · rename_i c1 htiers
    rw [htiers] at hmono
    split
    · have := printHeaders_column_data c1.headers_list c1 none
      unfold padOf
      rw [this]
      exact hmono
    · exact hmono

theorem discover_padding_proj (c : Columnizer) (message : PyVal) :
    (discover_padding c message).1.headers = c.headers ∧
    (discover_padding c message).1.headers_list = c.headers_list ∧
    (discover_padding c message).1.col_just = c.col_just ∧
    (discover_padding c message).1.colormap = c.colormap ∧
    (discover_padding c message).1.delimiter = c.delimiter ∧
    (discover_padding c message).1.indent = c.indent ∧
    (discover_padding c message).1.colorize_output = c.colorize_output ∧
    (discover_padding c message).1.message = c.message ∧
    (discover_padding c message).1.mode = c.mode ∧
    (discover_padding c message).1.needs_reflow = c.needs_reflow ∧
    (discover_padding c message).1.paginate = c.paginate ∧
    (discover_padding c message).1.paginate_break = c.paginate_break ∧
    (discover_padding c message).1.print_header = c.print_header ∧
    (discover_padding c message).1.term_height = c.term_height ∧
    (discover_padding c message).1.count = c.count ∧
    (discover_padding c message).1.stdin = c.stdin ∧
    (discover_padding c message).1.padding_done = true := by
  rw [discover_padding_eq]
  have hs := discoverTiers_sameButCols (msgRows message) c.headers_list
    { c with padding_done := true }
  split
  · rename_i c1 e htiers
    rw [htiers] at hs
    obtain ⟨f, hf⟩ := hs
    dsimp only at hf
    rw [hf]
    cases c
    simp
  · rename_i c1 htiers
    rw [htiers] at hs
    obtain ⟨f, hf⟩ := hs
    dsimp only at hf
    split
    · obtain ⟨extra, hx⟩ := printHeaders_shape c1.headers_list c1 none
      rw [hx, hf]
      cases c
      simp
    · rw [hf]
      cases c
      simp

theorem discover_padding_cover (c c' : Columnizer) (message : PyVal)
    (hmem : c.headers ∈ c.headers_list)
    (h : discover_padding c message = (c', none)) :
    (∀ r ∈ msgRows message, ∀ i key, c.headers.get? i = some key →
      ∃ w, rowWord r key i = Except.ok w ∧ (pyStr w).length ≤ padOf c' key) ∧
    (msgRows message ≠ [] → ∀ i key, c.headers.get? i = some key →
      key.length ≤ padOf c' key) := by
  rw [discover_padding_eq] at h
  split at h
  · simp at h
  · rename_i c1 htiers
    have hcov := discoverTiers_cover (msgRows message) c.headers_list
      { c with padding_done := true } c1 htiers hmem
    have hpad : ∀ k, padOf c1 k = padOf c' k := by
      intro k
      split at h
      · obtain ⟨extra, hx⟩ := printHeaders_shape c1.headers_list c1 none
        have hc' : c' = (printHeaders c1 c1.headers_list none).1 := by
          rcases hph : printHeaders c1 c1.headers_list none with ⟨cp, ep⟩
          rw [hph] at h
          cases h
          rfl
        rw [hc', hx]
        rfl
      · simp only [Prod.mk.injEq, and_true] at h
        rw [h]
    dsimp only at hcov
    constructor
    · intro r hr i key hkey
      obtain ⟨w, hw, hlen⟩ := hcov.1 r hr i key hkey
      exact ⟨w, hw, by rw [← hpad key]; exact hlen⟩
    · intro hne i key hkey
      rw [← hpad key]
      exact hcov.2 hne i key hkey

theorem printHeaders_typeOf (tiers : List (List String)) (c : Columnizer)
    (lb : Option String) (k : String) :
    typeOf (printHeaders c tiers lb).1 k = typeOf c k := by
  unfold typeOf
  rw [printHeaders_column_data]

theorem discover_padding_type_infer (c c' : Columnizer) (message : PyVal)
    (hflat : c.headers_list = [c.headers]) (hnodup : c.headers.Nodup)
    (hcj : colJustTruthy c.col_just = false)
    (h : discover_padding c message = (c', none)) :
    ∀ i key, c.headers.get? i = some key →
    ∀ rl ∈ (msgRows message).getLast?, ∀ w, rowWord rl key i = Except.ok w →
    typeOf c' key = (if pyIntOk w then "num" else "str") := by
  intro i key hkey rl hrl w hww
  rw [discover_padding_eq] at h
  rw [hflat] at h
  split at h
  · simp at h
  · rename_i c1 htiers
    unfold discoverTiers at htiers
    split at htiers
    · simp at htiers
    · rename_i caux haux
      unfold discoverTiers at htiers
      simp only [Prod.mk.injEq, and_true] at htiers
      subst htiers
      have htype := discoverTierAux_type_infer (msgRows message) c.headers
        _ caux 0 haux hcj
        (by intro j; rw [Nat.zero_add]) hnodup i key hkey rl hrl w
        (by rw [Nat.zero_add]; exact hww)
      split at h
      · have hc' : c' = (printHeaders caux caux.headers_list none).1 := by
          rcases hph : printHeaders caux caux.headers_list none with ⟨cp, ep⟩
          rw [hph] at h
          cases h
          rfl
        rw [hc', printHeaders_typeOf, htype]
      · simp only [Prod.mk.injEq, and_true] at h
        rw [← h, htype]

theorem discover_padding_type_just (c c' : Columnizer) (message : PyVal)
    (hflat : c.headers_list = [c.headers]) (hnodup : c.headers.Nodup)
    (hcj : colJustTruthy c.col_just = true)
    (hne : msgRows message ≠ [])
    (h : discover_padding c message = (c', none)) :
    ∀ i key, c.headers.get? i = some key →
    ∀ jv, (c.col_just.getD []).get? i = some jv →
    typeOf c' key = jv := by
  intro i key hkey jv hjv
  rw [discover_padding_eq] at h
  rw [hflat] at h
  split at h
  · simp at h
  · rename_i c1 htiers
    unfold discoverTiers at htiers
    split at htiers
    · simp at htiers
    · rename_i caux haux
      unfold discoverTiers at htiers
      simp only [Prod.mk.injEq, and_true] at htiers
      subst htiers
      have htype := discoverTierAux_type_just (msgRows message) c.headers
        _ caux 0 haux hcj
        (by intro j; rw [Nat.zero_add]) hnodup hne i key hkey jv
        (by rw [Nat.zero_add]; exact hjv)
      split at h
      · have hc' : c' = (printHeaders caux caux.headers_list none).1 := by
          rcases hph : printHeaders caux caux.headers_list none with ⟨cp, ep⟩
          rw [hph] at h
          cases h
          rfl
        rw [hc', printHeaders_typeOf, htype]
      · simp only [Prod.mk.injEq, and_true] at h
        rw [← h, htype]

/-! ### Formatting-layer lemmas -/

theorem _format_column_fst (c : Columnizer) (col : String) (m : PyVal) :
    (_format_column c col m).1 =
      if (pyStr m).length > (c.column_data col).padding then
        { setCol c col ⟨(pyStr m).length, (c.column_data col).type⟩ with
          needs_reflow := true }
      else c := by
  unfold _format_column
  dsimp only
  split
  · split
    · split <;> rfl
    · rfl
  · split
    · split <;> rfl
    · rfl

theorem _format_column_fit (c : Columnizer) (col : String) (m : PyVal)
    (h : (pyStr m).length ≤ (c.column_data col).padding) :
    (_format_column c col m).1 = c := by
  rw [_format_column_fst]
  rw [if_neg (by omega)]

theorem _format_column_padOf (c : Columnizer) (col : String) (m : PyVal) (k : String) :
    padOf (_format_column c col m).1 k =
      if k = col then max (pyStr m).length (padOf c col) else padOf c k := by
  rw [_format_column_fst]
  by_cases hgt : (pyStr m).length > (c.column_data col).padding
  · rw [if_pos hgt]
    by_cases hk : k = col
    · subst hk
      rw [if_pos rfl]
      have h1 : padOf { setCol c k ⟨(pyStr m).length, (c.column_data k).type⟩ with
          needs_reflow := true } k = (pyStr m).length := by
        simp [padOf, setCol]
      rw [h1]
      have h2 : padOf c k = (c.column_data k).padding := rfl
      rw [Nat.max_eq_left (by omega)]
    · rw [if_neg hk]
      simp [padOf, setCol, hk]
  · rw [if_neg hgt]
    by_cases hk : k = col
    · subst hk
      rw [if_pos rfl]
      have h2 : padOf c k = (c.column_data k).padding := rfl
      rw [Nat.max_eq_right (by omega)]
    · rw [if_neg hk]

theorem _format_column_typeOf (c : Columnizer) (col : String) (m : PyVal) (k : String) :
    typeOf (_format_column c col m).1 k = typeOf c k := by
  rw [_format_column_fst]
  split
  · by_cases hk : k = col
    · subst hk
      simp [typeOf, setCol]
    · simp [typeOf, setCol, hk]
  · rfl

theorem _format_column_shape (c : Columnizer) (col : String) (m : PyVal) :
    ∃ f b, (_format_column c col m).1 =
      { c with column_data := f, needs_reflow := b } := by
  rw [_format_column_fst]
  split
  · exact ⟨_, true, rfl⟩
  · exact ⟨c.column_data, c.needs_reflow, by cases c; rfl⟩

theorem _format_column_snd_plain (c : Columnizer) (col : String) (m : PyVal)
    (hcol : c.colorize_output = false)
    (hfit : (pyStr m).length ≤ (c.column_data col).padding) :
    (_format_column c col m).2 =
      Except.ok (if (c.column_data col).type = "num"
        then rjust (pyStr m) (c.column_data col).padding
        else ljust (pyStr m) (c.column_data col).padding) := by
  unfold _format_column
  dsimp only
  split
  · omega
  · split
    · rename_i hcb
      rw [hcol] at hcb
      cases hcb
    · rfl

theorem formatRowAux_shape (row : PyVal) :
    ∀ (cols : List String) (c : Columnizer) (index : Nat),
    ∃ f b, (formatRowAux c row index cols).1 =
      { c with column_data := f, needs_reflow := b } := by
  intro cols
  induction cols with
  | nil =>
    intro c index
    exact ⟨c.column_data, c.needs_reflow, by cases c; rfl⟩
  | cons col cols ih =>
    intro c index
    unfold formatRowAux
    split
    · exact ⟨c.column_data, c.needs_reflow, by cases c; rfl⟩
    · rename_i word hw
      obtain ⟨f1, b1, h1⟩ := _format_column_shape c col word
      split
      · rename_i c1 e hfc
        rw [hfc] at h1
        dsimp only at h1
        exact ⟨f1, b1, h1⟩
      · rename_i c1 m hfc
        rw [hfc] at h1
        dsimp only at h1
        obtain ⟨f2, b2, h2⟩ := ih c1 (index + 1)
        split
        · rename_i c2 e hrec
          rw [hrec] at h2
          dsimp only at h2
          dsimp only
          rw [h2, h1]
          exact ⟨f2, b2, rfl⟩
        · rename_i c2 ms hrec
          rw [hrec] at h2
          dsimp only at h2
          dsimp only
          rw [h2, h1]
          exact ⟨f2, b2, rfl⟩

theorem formatRowAux_padOf_mono (row : PyVal) :
    ∀ (cols : List String) (c : Columnizer) (index : Nat) (k : String),
    padOf c k ≤ padOf (formatRowAux c row index cols).1 k := by
  intro cols
  induction cols with
  | nil => intro c index k; exact Nat.le_refl _
  | cons col cols ih =>
    intro c index k
    unfold formatRowAux
    split
    · exact Nat.le_refl _
    · rename_i word hw
      have hfcm : padOf c k ≤ padOf (_format_column c col word).1 k := by
        rw [_format_column_padOf]
        split
        · rename_i hk
          subst hk
          exact Nat.le_max_right _ _
        · exact Nat.le_refl _
      split
      · rename_i c1 e hfc
        rw [hfc] at hfcm
        exact hfcm
      · rename_i c1 m hfc
        rw [hfc] at hfcm
        have := ih c1 (index + 1) k
        split
        · rename_i c2 e hrec
          rw [hrec] at this
          exact le_trans hfcm this
        · rename_i c2 ms hrec
          rw [hrec] at this
          exact le_trans hfcm this

theorem formatRowAux_cover (row : PyVal) :
    ∀ (cols : List String) (c c' : Columnizer) (res : List String) (index : Nat),
    formatRowAux c row index cols = (c', Except.ok res) →
    ∀ j key, cols.get? j = some key → ∀ w, rowWord row key (index + j) = Except.ok w →
    (pyStr w).length ≤ padOf c' key := by
  intro cols
  induction cols with
  | nil => intro c c' res index _ j key hj; cases hj
  | cons col cols ih =>
    intro c c' res index h j key hj w hww
    unfold formatRowAux at h
    split at h
    · simp at h
    · rename_i word hw
      split at h
      · simp at h
      · rename_i c1 m hfc
        split at h
        · simp at h
        · rename_i c2 ms hrec
          simp only [Prod.mk.injEq] at h
          obtain ⟨hc2, -⟩ := h
          subst hc2
          cases j with
          | zero =>
            have hkey : key = col := by
              simp [List.get?] at hj
              exact hj.symm
            subst hkey
            rw [Nat.add_zero] at hww
            rw [hw] at hww
            cases hww
            have hpad1 : (pyStr w).length ≤ padOf c1 key := by
              have hp := _format_column_padOf c key w key
              rw [hfc] at hp
              dsimp only at hp
              rw [hp, if_pos rfl]
              exact Nat.le_max_left _ _
            have hmono := formatRowAux_padOf_mono row cols c1 (index + 1) key
            rw [hrec] at hmono
            exact le_trans hpad1 hmono
          | succ j' =>
            have hj1 : cols.get? j' = some key := by
              simpa [List.get?] using hj
            have harith : index + (j' + 1) = (index + 1) + j' := by omega
            rw [harith] at hww
            exact ih c1 c2 ms (index + 1) hrec j' key hj1 w hww

theorem formatRowAux_fit (row : PyVal) :
    ∀ (cols : List String) (c : Columnizer) (index : Nat),
    (∀ j key, cols.get? j = some key → ∀ w, rowWord row key (index + j) = Except.ok w →
      (pyStr w).length ≤ padOf c key) →
    (formatRowAux c row index cols).1 = c := by
  intro cols
  induction cols with
  | nil => intro c index _; rfl
  | cons col cols ih =>
    intro c index hfit
    unfold formatRowAux
    split
    · rfl
    · rename_i word hw
      have hfit0 : (pyStr word).length ≤ padOf c col := by
        refine hfit 0 col (by simp [List.get?]) word ?_
        rw [Nat.add_zero]
        exact hw
      have hfc1 : (_format_column c col word).1 = c := _format_column_fit c col word hfit0
      split
      · rename_i c1 e hfc
        rw [hfc] at hfc1
        exact hfc1
      · rename_i c1 m hfc
        rw [hfc] at hfc1
        dsimp only at hfc1
        subst hfc1
        have hrec1 := ih c1 (index + 1) (by
          intro j key hj w hww
          refine hfit (j + 1) key (by simpa [List.get?] using hj) w ?_
          have harith : index + (j + 1) = (index + 1) + j := by omega
          rw [harith]
          exact hww)
        split
        · rename_i c2 e hrec
          rw [hrec] at hrec1
          exact hrec1
        · rename_i c2 ms hrec
          rw [hrec] at hrec1
          exact hrec1

/-! ### Preservation through the fueled update system -/

/-- The construction-time configuration fields that no operation changes. -/
def cfgEq (c c' : Columnizer) : Prop :=
  c'.headers = c.headers ∧ c'.headers_list = c.headers_list ∧
  c'.col_just = c.col_just ∧ c'.colormap = c.colormap ∧
  c'.delimiter = c.delimiter ∧ c'.indent = c.indent ∧
  c'.colorize_output = c.colorize_output ∧ c'.paginate = c.paginate ∧
  c'.paginate_break = c.paginate_break ∧ c'.print_header = c.print_header ∧
  c'.term_height = c.term_height

/-- Configuration is unchanged and every column's padding can only have
grown. -/
def Pres (c c' : Columnizer) : Prop :=
  cfgEq c c' ∧ ∀ k, padOf c k ≤ padOf c' k

theorem pres_refl (c : Columnizer) : Pres c c :=
  ⟨⟨rfl, rfl, rfl, rfl, rfl, rfl, rfl, rfl, rfl, rfl, rfl⟩, fun _ => Nat.le_refl _⟩

theorem pres_trans {a b c : Columnizer} (h1 : Pres a b) (h2 : Pres b c) : Pres a c := by
  obtain ⟨⟨e1, e2, e3, e4, e5, e6, e7, e8, e9, e10, e11⟩, hp1⟩ := h1
  obtain ⟨⟨f1, f2, f3, f4, f5, f6, f7, f8, f9, f10, f11⟩, hp2⟩ := h2
  refine ⟨⟨?_, ?_, ?_, ?_, ?_, ?_, ?_, ?_, ?_, ?_, ?_⟩, fun k => le_trans (hp1 k) (hp2 k)⟩
  all_goals first
    | (rw [f1, e1]) | (rw [f2, e2]) | (rw [f3, e3]) | (rw [f4, e4]) | (rw [f5, e5])
    | (rw [f6, e6]) | (rw [f7, e7]) | (rw [f8, e8]) | (rw [f9, e9]) | (rw [f10, e10])
    | (rw [f11, e11])

theorem pres_pr (c : Columnizer) (s : String) : Pres c (pr c s) :=
  ⟨⟨rfl, rfl, rfl, rfl, rfl, rfl, rfl, rfl, rfl, rfl, rfl⟩, fun _ => Nat.le_refl _⟩

theorem pr_mode (c : Columnizer) (s : String) : (pr c s).mode = c.mode := rfl

theorem pres_pyInput (c : Columnizer) (s : String) : Pres c (pyInput c s).1 := by
  unfold pyInput
  dsimp only
  split
  · exact pres_pr c s
  · exact pres_trans (pres_pr c s) ⟨⟨rfl, rfl, rfl, rfl, rfl, rfl, rfl, rfl, rfl, rfl, rfl⟩,
      fun _ => Nat.le_refl _⟩

theorem pyInput_mode (c : Columnizer) (s : String) : (pyInput c s).1.mode = c.mode := by
  unfold pyInput
  dsimp only
  split <;> rfl

theorem pres_discover (c : Columnizer) (m : PyVal) : Pres c (discover_padding c m).1 := by
  obtain ⟨h1, h2, h3, h4, h5, h6, h7, -, -, -, h11, h12, h13, h14, -, -, -⟩ :=
    discover_padding_proj c m
  exact ⟨⟨h1, h2, h3, h4, h5, h6, h7, h11, h12, h13, h14⟩,
    fun k => discover_padding_padOf_mono c m k⟩

theorem formatRowAux_proj (c : Columnizer) (row : PyVal) (index : Nat)
    (cols : List String) :
    (formatRowAux c row index cols).1.headers = c.headers ∧
    (formatRowAux c row index cols).1.headers_list = c.headers_list ∧
    (formatRowAux c row index cols).1.col_just = c.col_just ∧
    (formatRowAux c row index cols).1.colormap = c.colormap ∧
    (formatRowAux c row index cols).1.delimiter = c.delimiter ∧
    (formatRowAux c row index cols).1.indent = c.indent ∧
    (formatRowAux c row index cols).1.colorize_output = c.colorize_output ∧
    (formatRowAux c row index cols).1.paginate = c.paginate ∧
    (formatRowAux c row index cols).1.paginate_break = c.paginate_break ∧
    (formatRowAux c row index cols).1.print_header = c.print_header ∧
    (formatRowAux c row index cols).1.term_height = c.term_height ∧
    (formatRowAux c row index cols).1.message = c.message ∧
    (formatRowAux c row index cols).1.mode = c.mode ∧
    (formatRowAux c row index cols).1.count = c.count ∧
    (formatRowAux c row index cols).1.output = c.output ∧
    (formatRowAux c row index cols).1.stdin = c.stdin ∧
    (formatRowAux c row index cols).1.padding_done = c.padding_done := by
  obtain ⟨f, b, h⟩ := formatRowAux_shape row cols c index
  rw [h]
  exact ⟨rfl, rfl, rfl, rfl, rfl, rfl, rfl, rfl, rfl, rfl, rfl, rfl, rfl, rfl, rfl, rfl, rfl⟩

theorem pres_formatRowAux (c : Columnizer) (row : PyVal) (index : Nat)
    (cols : List String) : Pres c (formatRowAux c row index cols).1 := by
  obtain ⟨h1, h2, h3, h4, h5, h6, h7, h8, h9, h10, h11, -⟩ :=
    formatRowAux_proj c row index cols
  exact ⟨⟨h1, h2, h3, h4, h5, h6, h7, h8, h9, h10, h11⟩,
    fun k => formatRowAux_padOf_mono row cols c index k⟩

theorem pres_reset (c : Columnizer) :
    Pres c { pr c "" with message := [], padding_done := false } :=
  ⟨⟨rfl, rfl, rfl, rfl, rfl, rfl, rfl, rfl, rfl, rfl, rfl⟩, fun _ => Nat.le_refl _⟩

theorem pyInput_pres_eq {a b : Columnizer} {r : Except PyErr String} {p : String}
    (h : pyInput a p = (b, r)) : Pres a b ∧ b.mode = a.mode := by
  have h1 := pres_pyInput a p
  have h2 := pyInput_mode a p
  rw [h] at h1 h2
  exact ⟨h1, h2⟩

theorem _update_line_pres (fuel : Nat)
    (href : ∀ f c1, fuel = f + 1 → Pres c1 (_reflow_columns f c1).1 ∧
      ((_reflow_columns f c1).2 = none → (_reflow_columns f c1).1.mode = c1.mode)) :
    ∀ c row, Pres c (_update_line fuel c row).1 ∧
      ((_update_line fuel c row).2 = none → (_update_line fuel c row).1.mode = c.mode) := by
  intro c row
  rw [_update_line_eq]
  dsimp only
  set c0 := { c with count := c.count + 1, message := c.message ++ [row] } with hc0
  have hpres0 : Pres c c0 :=
    ⟨⟨rfl, rfl, rfl, rfl, rfl, rfl, rfl, rfl, rfl, rfl, rfl⟩, fun _ => Nat.le_refl _⟩
  have hmode0 : c0.mode = c.mode := rfl
  split
  · rename_i c1 e hfr
    have h1 := pres_formatRowAux c0 row 0 c.headers
    rw [hfr] at h1
    exact ⟨pres_trans hpres0 h1, fun h => Option.noConfusion h⟩
  · rename_i c1 cells hfr
    have h1 := pres_formatRowAux c0 row 0 c.headers
    have hm1 := (formatRowAux_proj c0 row 0 c.headers).2.2.2.2.2.2.2.2.2.2.2.2.1
    rw [hfr] at h1 hm1
    dsimp only at h1 hm1
    have hpresc1 : Pres c c1 := pres_trans hpres0 h1
    have hmodec1 : c1.mode = c.mode := by rw [hm1]
    split
    · split
      · rename_i hpag
        split
        · rename_i c5 e hblock
          constructor
          · split at hblock
            · split at hblock
              · rename_i c4 e2 hinp
                simp only [Prod.mk.injEq] at hblock
                obtain ⟨hc5, -⟩ := hblock
                subst hc5
                obtain ⟨hp, -⟩ := pyInput_pres_eq hinp
                exact pres_trans hpresc1 (pres_trans (pres_pr _ _) (pres_trans (pres_pr _ _) hp))
              · simp at hblock
            · simp at hblock
          · intro hcontra
            exact Option.noConfusion hcontra
        · rename_i c5 hblock
          have hpres5 : Pres c1 c5 ∧ c5.mode = c1.mode := by
            split at hblock
            · split at hblock
              · simp at hblock
              · rename_i c4 line4 hinp
                simp only [Prod.mk.injEq] at hblock
                obtain ⟨hc5, -⟩ := hblock
                subst hc5
                obtain ⟨hp, hpm⟩ := pyInput_pres_eq hinp
                exact ⟨pres_trans (pres_pr _ _) (pres_trans (pres_pr _ _) hp), hpm.trans rfl⟩
            · simp only [Prod.mk.injEq] at hblock
              obtain ⟨hc5, -⟩ := hblock
              subst hc5
              exact ⟨pres_pr _ _, rfl⟩
          constructor
          · exact pres_trans hpresc1 (pres_trans hpres5.1 (pres_reset c5))
          · intro _
            show ({ pr c5 "" with message := [], padding_done := false }).mode = c.mode
            have hh : ({ pr c5 "" with message := [], padding_done := false }).mode
                = c5.mode := rfl
            rw [hh, hpres5.2, hmodec1]
      · constructor
        · exact pres_trans hpresc1 (pres_pr _ _)
        · intro _
          show (pr c1 _).mode = c.mode
          rw [pr_mode, hmodec1]
    · cases fuel with
      | zero =>
        rw [reflowGuard_zero]
        exact ⟨hpresc1, fun hcontra => Option.noConfusion hcontra⟩
      | succ f =>
        rw [reflowGuard_succ]
        obtain ⟨hrp, hrm⟩ := href f c1 rfl
        constructor
        · exact pres_trans hpresc1 hrp
        · intro hok
          rw [hrm hok, hmodec1]

theorem updateAll_pres (fuel : Nat)
    (hline : ∀ c row, Pres c (_update_line fuel c row).1 ∧
      ((_update_line fuel c row).2 = none → (_update_line fuel c row).1.mode = c.mode)) :
    ∀ rows c, Pres c (updateAll fuel c rows).1 ∧
      ((updateAll fuel c rows).2 = none → (updateAll fuel c rows).1.mode = c.mode) := by
  intro rows
  induction rows with
  | nil =>
    intro c
    rw [updateAll_nil_eq]
    exact ⟨pres_refl c, fun _ => rfl⟩
  | cons r rs ih =>
    intro c
    rw [updateAll_cons_eq]
    obtain ⟨hp, hm⟩ := hline c r
    split
    · rename_i c1 e hl
      rw [hl] at hp
      exact ⟨hp, fun h => Option.noConfusion h⟩
    · rename_i c1 hl
      rw [hl] at hp hm
      obtain ⟨hp2, hm2⟩ := ih c1
      constructor
      · exact pres_trans hp hp2
      · intro hok
        rw [hm2 hok, hm rfl]

theorem update_pres (fuel : Nat)
    (hline : ∀ c row, Pres c (_update_line fuel c row).1 ∧
      ((_update_line fuel c row).2 = none → (_update_line fuel c row).1.mode = c.mode))
    (hall : ∀ rows c, Pres c (updateAll fuel c rows).1 ∧
      ((updateAll fuel c rows).2 = none → (updateAll fuel c rows).1.mode = c.mode)) :
    ∀ c m, Pres c (update fuel c m).1 ∧
      ((update fuel c m).2 = none → (update fuel c m).1.mode = c.mode) := by
  intro c m
  rw [update_eq]
  dsimp only
  split
  · rename_i c1 e hd
    have hpd : Pres c c1 ∧ c1.mode = c.mode := by
      by_cases hpdone : c.padding_done = false
      · rw [if_pos hpdone] at hd
        have h1 := pres_discover c m
        have h2 := (discover_padding_proj c m).2.2.2.2.2.2.2.2.1
        rw [hd] at h1 h2
        exact ⟨h1, h2⟩
      · rw [if_neg hpdone] at hd
        simp only [Prod.mk.injEq] at hd
        exact absurd hd.2 (by simp)
    exact ⟨hpd.1, fun h => Option.noConfusion h⟩
  · rename_i c1 hd
    have hpd : Pres c c1 ∧ c1.mode = c.mode := by
      by_cases hpdone : c.padding_done = false
      · rw [if_pos hpdone] at hd
        have h1 := pres_discover c m
        have h2 := (discover_padding_proj c m).2.2.2.2.2.2.2.2.1
        rw [hd] at h1 h2
        exact ⟨h1, h2⟩
      · rw [if_neg hpdone] at hd
        simp only [Prod.mk.injEq] at hd
        rw [← hd.1]
        exact ⟨pres_refl c, rfl⟩
    have hpres1 : Pres c { c1 with needs_reflow := false } :=
      pres_trans hpd.1 ⟨⟨rfl, rfl, rfl, rfl, rfl, rfl, rfl, rfl, rfl, rfl, rfl⟩,
        fun _ => Nat.le_refl _⟩
    have hmode1 : ({ c1 with needs_reflow := false } : Columnizer).mode = c.mode := hpd.2
    split
    · obtain ⟨hp, hm⟩ := hline { c1 with needs_reflow := false } m
      exact ⟨pres_trans hpres1 hp, fun hok => by rw [hm hok, hmode1]⟩
    · split
      · obtain ⟨hp, hm⟩ := hall (pyIterate m) { c1 with needs_reflow := false }
        exact ⟨pres_trans hpres1 hp, fun hok => by rw [hm hok, hmode1]⟩
      · exact ⟨hpres1, fun _ => hmode1⟩

theorem update_pres_eq (fuel : Nat)
    (hupd : ∀ c m, Pres c (update fuel c m).1 ∧
      ((update fuel c m).2 = none → (update fuel c m).1.mode = c.mode))
    {a b : Columnizer} {e? : Option PyErr} {m : PyVal}
    (h : update fuel a m = (b, e?)) :
    Pres a b ∧ (e? = none → b.mode = a.mode) := by
  obtain ⟨hp, hm⟩ := hupd a m
  rw [h] at hp hm
  exact ⟨hp, fun hn => hm hn⟩

theorem _reflow_columns_pres (fuel : Nat)
    (hupd : ∀ c m, Pres c (update fuel c m).1 ∧
      ((update fuel c m).2 = none → (update fuel c m).1.mode = c.mode)) :
    ∀ c, Pres c (_reflow_columns fuel c).1 ∧
      ((_reflow_columns fuel c).2 = none → (_reflow_columns fuel c).1.mode = c.mode) := by
  intro c
  rw [_reflow_columns_eq]
  dsimp only
  split
  · rename_i c5 e hu
    obtain ⟨hp, -⟩ := update_pres_eq fuel hupd hu
    constructor
    · refine pres_trans (pres_trans ?_ (pres_pr _ _)) hp
      exact ⟨⟨rfl, rfl, rfl, rfl, rfl, rfl, rfl, rfl, rfl, rfl, rfl⟩, fun _ => Nat.le_refl _⟩
    · intro hcontra
      exact Option.noConfusion hcontra
  · rename_i c5 hu
    obtain ⟨hp, -⟩ := update_pres_eq fuel hupd hu
    constructor
    · refine pres_trans (pres_trans (pres_trans ?_ (pres_pr _ _)) hp) ?_
      · exact ⟨⟨rfl, rfl, rfl, rfl, rfl, rfl, rfl, rfl, rfl, rfl, rfl⟩, fun _ => Nat.le_refl _⟩
      · exact ⟨⟨rfl, rfl, rfl, rfl, rfl, rfl, rfl, rfl, rfl, rfl, rfl⟩, fun _ => Nat.le_refl _⟩
    · intro _
      rfl

theorem presSys : ∀ fuel : Nat,
    (∀ c row, Pres c (_update_line fuel c row).1 ∧
      ((_update_line fuel c row).2 = none → (_update_line fuel c row).1.mode = c.mode)) ∧
    (∀ rows c, Pres c (updateAll fuel c rows).1 ∧
      ((updateAll fuel c rows).2 = none → (updateAll fuel c rows).1.mode = c.mode)) ∧
    (∀ c m, Pres c (update fuel c m).1 ∧
      ((update fuel c m).2 = none → (update fuel c m).1.mode = c.mode)) ∧
    (∀ c, Pres c (_reflow_columns fuel c).1 ∧
      ((_reflow_columns fuel c).2 = none → (_reflow_columns fuel c).1.mode = c.mode)) := by
  intro fuel
  induction fuel with
  | zero =>
    have hline := _update_line_pres 0 (fun f c1 h => absurd h (by omega))
    have hall := updateAll_pres 0 hline
    have hupd := update_pres 0 hline hall
    exact ⟨hline, hall, hupd, _reflow_columns_pres 0 hupd⟩
  | succ f ih =>
    have hline := _update_line_pres (f + 1) (fun f2 c1 h => by
      have hf : f2 = f := by omega
      subst hf
      exact ih.2.2.2 c1)
    have hall := updateAll_pres (f + 1) hline
    have hupd := update_pres (f + 1) hline hall
    exact ⟨hline, hall, hupd, _reflow_columns_pres (f + 1) hupd⟩

/-! ### The reflow pass cannot trigger a nested reflow -/

/-- Every value of `row` that the formatting loop would look up fits inside
its column's current padding. -/
def RowFits (c : Columnizer) (row : PyVal) : Prop :=
  ∀ i key w, c.headers.get? i = some key → rowWord row key i = Except.ok w →
    (pyStr w).length ≤ padOf c key

theorem rowFits_transfer {c c' : Columnizer} {row : PyVal}
    (hh : c'.headers = c.headers) (hp : ∀ k, padOf c' k = padOf c k)
    (h : RowFits c row) : RowFits c' row := by
  intro i key w hkey hww
  rw [hh] at hkey
  rw [hp key]
  exact h i key w hkey hww

theorem pyInput_fields_eq {a b : Columnizer} {r : Except PyErr String} {p : String}
    (h : pyInput a p = (b, r)) :
    b.column_data = a.column_data ∧ b.needs_reflow = a.needs_reflow ∧
    b.headers = a.headers := by
  unfold pyInput at h
  dsimp only at h
  split at h
  · simp only [Prod.mk.injEq] at h
    rw [← h.1]
    exact ⟨rfl, rfl, rfl⟩
  · simp only [Prod.mk.injEq] at h
    rw [← h.1]
    exact ⟨rfl, rfl, rfl⟩

theorem _update_line_nobump (c : Columnizer) (row : PyVal) (fuel : Nat)
    (hnr : c.needs_reflow = false)
    (hfits : RowFits c row) :
    _update_line fuel c row = _update_line 0 c row ∧
    (_update_line fuel c row).1.needs_reflow = false ∧
    (∀ k, padOf (_update_line fuel c row).1 k = padOf c k) ∧
    (_update_line fuel c row).1.headers = c.headers := by
  have hfr0 : (formatRowAux { c with
      count := c.count + 1,
      message := c.message ++ [row] } row 0 c.headers).1 =
      { c with count := c.count + 1, message := c.message ++ [row] } := by
    refine formatRowAux_fit row c.headers _ 0 ?_
    intro j key hj w hww
    rw [Nat.zero_add] at hww
    exact hfits j key w hj hww
  rcases hfr : formatRowAux { c with
      count := c.count + 1,
      message := c.message ++ [row] } row 0 c.headers with ⟨c1, r1⟩
  rw [hfr] at hfr0
  dsimp only at hfr0
  rw [_update_line_eq fuel, _update_line_eq 0]
  dsimp only
  rw [hfr]
  subst hfr0
  cases r1 with
  | error e =>
    refine ⟨rfl, ?_, ?_, rfl⟩
    · exact hnr
    · intro k
      rfl
  | ok cells =>
    have hcond : ({ c with
        count := c.count + 1,
        message := c.message ++ [row] } : Columnizer).needs_reflow = false := hnr
    dsimp only
    simp only [if_pos hcond]
    refine ⟨trivial, ?_⟩
    split
    · split
      · rename_i c5 e hblock
        have hfields : c5.column_data = c.column_data ∧ c5.needs_reflow = false ∧
            c5.headers = c.headers := by
          split at hblock
          · split at hblock
            · rename_i c4 e2 hinp
              simp only [Prod.mk.injEq] at hblock
              obtain ⟨hc5, -⟩ := hblock
              subst hc5
              obtain ⟨ha, hb, hc⟩ := pyInput_fields_eq hinp
              exact ⟨ha, by rw [hb]; exact hnr, hc⟩
            · simp at hblock
          · simp at hblock
        exact ⟨hfields.2.1, fun k => by
          show padOf c5 k = padOf c k
          unfold padOf
          rw [hfields.1], hfields.2.2⟩
      · rename_i c5 hblock
        have hfields : c5.column_data = c.column_data ∧ c5.needs_reflow = false ∧
            c5.headers = c.headers := by
          split at hblock
          · split at hblock
            · simp at hblock
            · rename_i c4 line4 hinp
              simp only [Prod.mk.injEq] at hblock
              obtain ⟨hc5, -⟩ := hblock
              subst hc5
              obtain ⟨ha, hb, hc⟩ := pyInput_fields_eq hinp
              exact ⟨ha, by rw [hb]; exact hnr, hc⟩
          · simp only [Prod.mk.injEq] at hblock
            obtain ⟨hc5, -⟩ := hblock
            subst hc5
            exact ⟨rfl, hnr, rfl⟩
        exact ⟨hfields.2.1, fun k => by
          show padOf c5 k = padOf c k
          unfold padOf
          rw [hfields.1], hfields.2.2⟩
    · exact ⟨hnr, fun k => rfl, rfl⟩

theorem updateAll_nobump :
    ∀ (rows : List PyVal) (c : Columnizer) (fuel : Nat),
    c.needs_reflow = false →
    (∀ r ∈ rows, RowFits c r) →
    updateAll fuel c rows = updateAll 0 c rows ∧
    (updateAll fuel c rows).1.needs_reflow = false ∧
    (∀ k, padOf (updateAll fuel c rows).1 k = padOf c k) ∧
    (updateAll fuel c rows).1.headers = c.headers := by
  intro rows
  induction rows with
  | nil =>
    intro c fuel hnr _
    rw [updateAll_nil_eq fuel, updateAll_nil_eq 0]
    exact ⟨rfl, hnr, fun _ => rfl, rfl⟩
  | cons r rs ih =>
    intro c fuel hnr hfits
    obtain ⟨heq, hnr1, hpad1, hhead1⟩ :=
      _update_line_nobump c r fuel hnr (hfits r (by simp))
    rw [updateAll_cons_eq fuel, updateAll_cons_eq 0]
    rw [heq]
    rw [heq] at hnr1 hpad1 hhead1
    rcases hl : _update_line 0 c r with ⟨c1, e1⟩
    rw [hl] at hnr1 hpad1 hhead1
    dsimp only at hnr1 hpad1 hhead1
    cases e1 with
    | some e => exact ⟨rfl, hnr1, hpad1, hhead1⟩
    | none =>
      have hfits1 : ∀ r2 ∈ rs, RowFits c1 r2 := fun r2 hr2 =>
        rowFits_transfer hhead1 hpad1 (hfits r2 (by simp [hr2]))
      obtain ⟨heq2, hnr2, hpad2, hhead2⟩ := ih c1 fuel hnr1 hfits1
      dsimp only
      rw [heq2]
      exact ⟨rfl, hnr2.symm ▸ (heq2 ▸ rfl), fun k => by
        rw [← heq2, hpad2 k, hpad1 k], by rw [← heq2, hhead2, hhead1]⟩

theorem update_nobump_fresh (d : Columnizer) (rows : List PyVal) (fuel : Nat)
    (hpd : d.padding_done = false) (hnr : d.needs_reflow = false)
    (hmem : d.headers ∈ d.headers_list) (hmode : d.mode = "all") :
    update fuel d (PyVal.lst rows) = update 0 d (PyVal.lst rows) ∧
    (update fuel d (PyVal.lst rows)).1.needs_reflow = false := by
  rw [update_eq fuel, update_eq 0]
  dsimp only
  rw [if_pos hpd]
  rcases hd : discover_padding d (PyVal.lst rows) with ⟨cd, ed⟩
  have hproj := discover_padding_proj d (PyVal.lst rows)
  rw [hd] at hproj
  dsimp only at hproj
  have hcdnr : cd.needs_reflow = false := by rw [hproj.2.2.2.2.2.2.2.2.2.1, hnr]
  have hcdmode : cd.mode = "all" := by rw [hproj.2.2.2.2.2.2.2.2.1, hmode]
  cases ed with
  | some e =>
    dsimp only
    exact ⟨rfl, hcdnr⟩
  | none =>
    dsimp only
    have hc1 : ¬(({ cd with needs_reflow := false } : Columnizer).mode = "line") := by
      show ¬(cd.mode = "line")
      rw [hcdmode]
      decide
    have hc2 : ({ cd with needs_reflow := false } : Columnizer).mode = "all" := by
      show cd.mode = "all"
      exact hcdmode
    rw [if_neg hc1, if_neg hc1, if_pos hc2, if_pos hc2]
    simp only [pyIterate]
    have hfits : ∀ r ∈ rows, RowFits { cd with needs_reflow := false } r := by
      intro r hr
      intro i key w hkey hww
      have hcov := (discover_padding_cover d cd (PyVal.lst rows) hmem hd).1
      have hkey2 : d.headers.get? i = some key := by
        have hh : ({ cd with needs_reflow := false } : Columnizer).headers = d.headers := by
          show cd.headers = d.headers
          exact hproj.1
        rw [hh] at hkey
        exact hkey
      obtain ⟨w0, hw0, hlen0⟩ := hcov r (by simpa [msgRows] using hr) i key hkey2
      rw [hww] at hw0
      cases hw0
      show (pyStr w).length ≤ padOf cd key
      exact hlen0
    obtain ⟨heq, hnr2, -, -⟩ :=
      updateAll_nobump rows { cd with needs_reflow := false } fuel rfl hfits
    exact ⟨heq, hnr2⟩

theorem _reflow_columns_nobump (c : Columnizer) (fuel : Nat)
    (hmem : c.headers ∈ c.headers_list) :
    _reflow_columns fuel c = _reflow_columns 0 c ∧
    (_reflow_columns fuel c).1.needs_reflow = false := by
  rw [_reflow_columns_eq fuel, _reflow_columns_eq 0]
  dsimp only
  obtain ⟨heq, hnr⟩ := update_nobump_fresh
    (pr { c with needs_reflow := false, padding_done := false, mode := "all", message := [] } ("\n" ++ indentStr { c with needs_reflow := false, padding_done := false, mode := "all", message := [] } ++ "Long value detected, re-flowing columns to fit\n"))
    c.message fuel rfl rfl hmem rfl
  rw [heq]
  rcases hu : update 0 (pr { c with needs_reflow := false, padding_done := false, mode := "all", message := [] } ("\n" ++ indentStr { c with needs_reflow := false, padding_done := false, mode := "all", message := [] } ++ "Long value detected, re-flowing columns to fit\n")) (PyVal.lst c.message) with ⟨c5, e5⟩
  rw [heq, hu] at hnr
  dsimp only at hnr
  cases e5 with
  | some e =>
    exact ⟨rfl, hnr⟩
  | none =>
    exact ⟨rfl, hnr⟩

/-! ### Run-level coverage of observed values -/

theorem _update_line_cover (fuel : Nat) (c c' : Columnizer) (row : PyVal)
    (h : _update_line fuel c row = (c', none)) :
    ∀ i key w, c.headers.get? i = some key → rowWord row key i = Except.ok w →
    (pyStr w).length ≤ padOf c' key := by
  intro i key w hkey hww
  rw [_update_line_eq] at h
  dsimp only at h
  split at h
  · simp at h
  · rename_i c1 cells hfr
    have hcov := formatRowAux_cover row c.headers { c with
      count := c.count + 1,
      message := c.message ++ [row] } c1 cells 0 hfr i key hkey w
      (by rw [Nat.zero_add]; exact hww)
    split at h
    · split at h
      · split at h
        · simp at h
        · rename_i c5 hblock
          have hpres5 : ∀ k, padOf c1 k ≤ padOf c5 k := by
            split at hblock
            · split at hblock
              · simp at hblock
              · rename_i c4 line4 hinp
                simp only [Prod.mk.injEq] at hblock
                obtain ⟨hc5, -⟩ := hblock
                subst hc5
                obtain ⟨hcd, -, -⟩ := pyInput_fields_eq hinp
                intro k
                unfold padOf
                rw [hcd]
                exact Nat.le_refl _
            · simp only [Prod.mk.injEq] at hblock
              obtain ⟨hc5, -⟩ := hblock
              subst hc5
              intro k
              exact Nat.le_refl _
          simp only [Prod.mk.injEq] at h
          obtain ⟨hc', -⟩ := h
          rw [← hc']
          exact le_trans hcov (hpres5 key)
      · simp only [Prod.mk.injEq] at h
        obtain ⟨hc', -⟩ := h
        rw [← hc']
        exact hcov
    · cases fuel with
      | zero =>
        rw [reflowGuard_zero] at h
        simp at h
      | succ f =>
        rw [reflowGuard_succ] at h
        have hp := ((presSys f).2.2.2 c1).1
        rw [h] at hp
        exact le_trans hcov (hp.2 key)

theorem updateAll_cover (fuel : Nat) :
    ∀ (rows : List PyVal) (c c' : Columnizer),
    updateAll fuel c rows = (c', none) →
    ∀ r ∈ rows, ∀ i key w, c.headers.get? i = some key →
    rowWord r key i = Except.ok w → (pyStr w).length ≤ padOf c' key := by
  intro rows
  induction rows with
  | nil => intro c c' _ r hr; cases hr
  | cons r rs ih =>
    intro c c' h r2 hr2 i key w hkey hww
    rw [updateAll_cons_eq] at h
    split at h
    · simp at h
    · rename_i c1 hl
      have hp1 := ((presSys fuel).1 c r).1
      rw [hl] at hp1
      rcases List.mem_cons.mp hr2 with heq | hmem
      · subst heq
        have hcov := _update_line_cover fuel c c1 r2 hl i key w hkey hww
        have hp2 := ((presSys fuel).2.1 rs c1).1
        rw [h] at hp2
        exact le_trans hcov (hp2.2 key)
      · have hh1 : c1.headers = c.headers := hp1.1.1
        exact ih c1 c' h r2 hmem i key w (by rw [hh1]; exact hkey) hww

theorem update_cover_all (fuel : Nat) (c c' : Columnizer) (rows : List PyVal)
    (hmode : c.mode = "all")
    (h : update fuel c (PyVal.lst rows) = (c', none)) :
    (∀ r ∈ rows, ∀ i key w, c.headers.get? i = some key →
      rowWord r key i = Except.ok w → (pyStr w).length ≤ padOf c' key) ∧
    (c.padding_done = false → c.headers ∈ c.headers_list → rows ≠ [] →
      ∀ i key, c.headers.get? i = some key → key.length ≤ padOf c' key) := by
  rw [update_eq] at h
  dsimp only at h
  split at h
  · simp at h
  · rename_i c1 hd
    have hc1 : (c.padding_done = false → discover_padding c (PyVal.lst rows) = (c1, none)) ∧
        (¬ c.padding_done = false → c1 = c) := by
      constructor
      · intro hpd
        rw [if_pos hpd] at hd
        exact hd
      · intro hpd
        rw [if_neg hpd] at hd
        simp only [Prod.mk.injEq] at hd
        exact hd.1.symm
    have hmode1 : c1.mode = c.mode := by
      by_cases hpd : c.padding_done = false
      · have hdd := hc1.1 hpd
        have := (discover_padding_proj c (PyVal.lst rows)).2.2.2.2.2.2.2.2.1
        rw [hdd] at this
        exact this
      · rw [hc1.2 hpd]
    have hhead1 : c1.headers = c.headers := by
      by_cases hpd : c.padding_done = false
      · have hdd := hc1.1 hpd
        have := (discover_padding_proj c (PyVal.lst rows)).1
        rw [hdd] at this
        exact this
      · rw [hc1.2 hpd]
    have hcnd1 : ¬(({ c1 with needs_reflow := false } : Columnizer).mode = "line") := by
      show ¬(c1.mode = "line")
      rw [hmode1, hmode]
      decide
    have hcnd2 : ({ c1 with needs_reflow := false } : Columnizer).mode = "all" := by
      show c1.mode = "all"
      rw [hmode1, hmode]
    rw [if_neg hcnd1, if_pos hcnd2] at h
    have hall : updateAll fuel { c1 with needs_reflow := false } rows = (c', none) := h
    constructor
    · intro r hr i key w hkey hww
      refine updateAll_cover fuel rows { c1 with needs_reflow := false } c' hall r hr
        i key w ?_ hww
      show c1.headers.get? i = some key
      rw [hhead1]
      exact hkey
    · intro hpd hmem hne i key hkey
      have hdd := hc1.1 hpd
      have hlab := (discover_padding_cover c c1 (PyVal.lst rows) hmem hdd).2
        (by simpa [msgRows] using hne) i key hkey
      have hp2 := ((presSys fuel).2.1 rows { c1 with needs_reflow := false }).1
      rw [hall] at hp2
      refine le_trans ?_ (hp2.2 key)
      exact hlab

theorem runSteps_append (fuel : Nat) :
    ∀ (l1 l2 : List PyVal) (c : Columnizer),
    runSteps fuel c (l1 ++ l2) = runSteps fuel (runSteps fuel c l1) l2 := by
  intro l1
  induction l1 with
  | nil => intro l2 c; rfl
  | cons m ms ih =>
    intro l2 c
    show runSteps fuel (update fuel c m).1 (ms ++ l2) =
      runSteps fuel (runSteps fuel (update fuel c m).1 ms) l2
    exact ih l2 (update fuel c m).1

theorem runOk_append (fuel : Nat) :
    ∀ (l1 l2 : List PyVal) (c : Columnizer),
    runOk fuel c (l1 ++ l2) = true →
    runOk fuel c l1 = true ∧ runOk fuel (runSteps fuel c l1) l2 = true := by
  intro l1
  induction l1 with
  | nil => intro l2 c h; exact ⟨rfl, h⟩
  | cons m ms ih =>
    intro l2 c h
    have h2 : (match update fuel c m with
        | (c1, none) => runOk fuel c1 (ms ++ l2)
        | (_, some _) => false) = true := h
    rcases hu : update fuel c m with ⟨c1, e1⟩
    rw [hu] at h2
    cases e1 with
    | some e => cases h2
    | none =>
      dsimp only at h2
      obtain ⟨ha, hb⟩ := ih l2 c1 h2
      constructor
      · show (match update fuel c m with
            | (c1, none) => runOk fuel c1 ms
            | (_, some _) => false) = true
        rw [hu]
        exact ha
      · show runOk fuel (runSteps fuel (update fuel c m).1 ms) l2 = true
        rw [hu]
        exact hb

theorem runSteps_pres (fuel : Nat) :
    ∀ (msgs : List PyVal) (c : Columnizer), Pres c (runSteps fuel c msgs) := by
  intro msgs
  induction msgs with
  | nil => intro c; exact pres_refl c
  | cons m ms ih =>
    intro c
    unfold runSteps
    exact pres_trans ((presSys fuel).2.2.1 c m).1 (ih (update fuel c m).1)

theorem runSteps_mode (fuel : Nat) :
    ∀ (msgs : List PyVal) (c : Columnizer), runOk fuel c msgs = true →
    (runSteps fuel c msgs).mode = c.mode := by
  intro msgs
  induction msgs with
  | nil => intro c _; rfl
  | cons m ms ih =>
    intro c h
    have h2 : (match update fuel c m with
        | (c1, none) => runOk fuel c1 ms
        | (_, some _) => false) = true := h
    rcases hu : update fuel c m with ⟨c1, e1⟩
    rw [hu] at h2
    cases e1 with
    | some e => cases h2
    | none =>
      dsimp only at h2
      have h1 := ((presSys fuel).2.2.1 c m).2
      rw [hu] at h1
      show (runSteps fuel (update fuel c m).1 ms).mode = c.mode
      rw [hu]
      dsimp only
      rw [ih c1 h2, h1 rfl]

theorem runCoverAux (fuel : Nat) :
    ∀ (batches : List (List PyVal)) (c : Columnizer),
    c.mode = "all" →
    runOk fuel c (batches.map PyVal.lst) = true →
    ∀ b ∈ batches, ∀ r ∈ b, ∀ i key w, c.headers.get? i = some key →
    rowWord r key i = Except.ok w →
    (pyStr w).length ≤ padOf (runSteps fuel c (batches.map PyVal.lst)) key := by
  intro batches
  induction batches with
  | nil => intro c _ _ b hb; cases hb
  | cons b1 bs ih =>
    intro c hmode hok b hb r hr i key w hkey hww
    have h2 : (match update fuel c (PyVal.lst b1) with
        | (c1, none) => runOk fuel c1 (bs.map PyVal.lst)
        | (_, some _) => false) = true := hok
    rcases hu : update fuel c (PyVal.lst b1) with ⟨c1, e1⟩
    rw [hu] at h2
    cases e1 with
    | some e => cases h2
    | none =>
      dsimp only at h2
      have hrs : runSteps fuel c ((b1 :: bs).map PyVal.lst) =
          runSteps fuel c1 (bs.map PyVal.lst) := by
        show runSteps fuel (update fuel c (PyVal.lst b1)).1 (bs.map PyVal.lst) =
          runSteps fuel c1 (bs.map PyVal.lst)
        rw [hu]
      rw [hrs]
      have hpres1 := update_pres_eq fuel (fun cc mm => (presSys fuel).2.2.1 cc mm) hu
      have hhead1 : c1.headers = c.headers := hpres1.1.1.1
      have hmode1 : c1.mode = c.mode := hpres1.2 rfl
      rcases List.mem_cons.mp hb with heq | hmem
      · subst heq
        have hcov := (update_cover_all fuel c c1 b hmode hu).1 r hr i key w hkey hww
        have hp2 := runSteps_pres fuel (bs.map PyVal.lst) c1
        exact le_trans hcov (hp2.2 key)
      · exact ih c1 (by rw [hmode1, hmode]) h2 b hmem r hr i key w
          (by rw [hhead1]; exact hkey) hww

/-! ### Error analysis of discovery over a flat positional row -/

theorem rowWord_cell_err (s : String) (key : String) (index : Nat) (e : PyErr)
    (h : rowWord (PyVal.s s) key index = Except.error e) : e = PyErr.indexError := by
  unfold rowWord subscript at h
  dsimp only at h
  split at h
  · cases h
  · cases h
    rfl

theorem rowWord_cell_ok_len (s : String) (key : String) (index : Nat) (w : PyVal)
    (h : rowWord (PyVal.s s) key index = Except.ok w) : index < s.length := by
  unfold rowWord subscript at h
  dsimp only at h
  split at h
  · rename_i ch hch
    obtain ⟨hlt, -⟩ := List.get?_eq_some.mp hch
    exact hlt
  · cases h

theorem inferStep_err (c : Columnizer) (key : String) (index : Nat) (word : PyVal)
    (c2 : Columnizer) (e : PyErr) (h : inferStep c key index word = (c2, some e)) :
    e = PyErr.indexError := by
  unfold inferStep at h
  split at h
  · split at h
    · simp at h
    · simp only [Prod.mk.injEq] at h
      have h2 := h.2
      cases h2
      rfl
  · simp at h

theorem discoverRows_err_cells (key col : String) (index : Nat) :
    ∀ (cells : List String) (c : Columnizer) (e : PyErr),
    (discoverRows c key col index (cells.map PyVal.s)).2 = some e →
    e = PyErr.indexError := by
  intro cells
  induction cells with
  | nil => intro c e h; cases h
  | cons s rest ih =>
    intro c e h
    simp only [List.map_cons] at h
    unfold discoverRows at h
    split at h
    · rename_i e2 hw
      dsimp only at h
      cases h
      exact rowWord_cell_err s key index e hw
    · rename_i word hw
      dsimp only at h
      split at h
      · rename_i c2 e2 hinf
        dsimp only at h
        cases h
        exact inferStep_err _ key index word c2 e hinf
      · rename_i c2 hinf
        exact ih c2 e h

theorem discoverRows_success_len (key col : String) (index : Nat) :
    ∀ (cells : List String) (c c' : Columnizer),
    discoverRows c key col index (cells.map PyVal.s) = (c', none) →
    ∀ s ∈ cells, index < s.length := by
  intro cells
  induction cells with
  | nil => intro c c' _ s hs; cases hs
  | cons s0 rest ih =>
    intro c c' h s hs
    simp only [List.map_cons] at h
    unfold discoverRows at h
    split at h
    · simp at h
    · rename_i word hw
      dsimp only at h
      split at h
      · simp at h
      · rename_i c2 hinf
        rcases List.mem_cons.mp hs with heq | hmem
        · subst heq
          exact rowWord_cell_ok_len s key index word hw
        · exact ih c2 c' h s hmem
theorem discoverTierAux_err_cells (cells : List String) :
    ∀ (tier : List String) (c : Columnizer) (i0 : Nat) (e : PyErr),
    (discoverTierAux c (cells.map PyVal.s) i0 tier).2 = some e →
    e = PyErr.indexError := by
  intro tier
  induction tier with
  | nil => intro c i0 e h; cases h
  | cons col cols ih =>
    intro c i0 e h
    unfold discoverTierAux at h
    split at h
    · cases h
      rfl
    · rename_i key hkey
      split at h
      · rename_i c1 e1 hrows
        dsimp only at h
        cases h
        exact discoverRows_err_cells key col i0 cells c e (by rw [hrows])
      · rename_i c1 hrows
        exact ih c1 (i0 + 1) e h

theorem discoverTierAux_success_cells (cells : List String) :
    ∀ (tier : List String) (c c' : Columnizer) (i0 : Nat),
    discoverTierAux c (cells.map PyVal.s) i0 tier = (c', none) →
    ∀ j, j < tier.length → ∀ s ∈ cells, i0 + j < s.length := by
  intro tier
  induction tier with
  | nil => intro c c' i0 _ j hj; simp at hj
  | cons col cols ih =>
    intro c c' i0 h j hj s hs
    unfold discoverTierAux at h
    split at h
    · simp at h
    · rename_i key hkey
      split at h
      · simp at h
      · rename_i c1 hrows
        cases j with
        | zero =>
          rw [Nat.add_zero]
          exact discoverRows_success_len key col i0 cells c c1 hrows s hs
        | succ j' =>
          have : (i0 + 1) + j' < s.length :=
            ih c1 c' (i0 + 1) h j' (by simpa using Nat.lt_of_succ_lt_succ hj) s hs
          omega

theorem discover_flat_cells_err (c : Columnizer) (cells : List String)
    (hflat : c.headers_list = [c.headers]) (hlen : 1 ≤ c.headers.length)
    (hshort : ∃ s ∈ cells, s.length < c.headers.length) :
    (discover_padding c (PyVal.lst (cells.map PyVal.s))).2 = some PyErr.indexError ∧
    (discover_padding c (PyVal.lst (cells.map PyVal.s))).1.output = c.output := by
  rw [discover_padding_eq, hflat]
  have hmsg : msgRows (PyVal.lst (cells.map PyVal.s)) = cells.map PyVal.s := rfl
  rw [hmsg]
  unfold discoverTiers
  rcases haux : discoverTierAux { c with headers_list := [c.headers], padding_done := true }
      (cells.map PyVal.s) 0 c.headers with ⟨c1, e1⟩
  cases e1 with
  | none =>
    exfalso
    obtain ⟨s0, hs0, hlt⟩ := hshort
    have hbound := discoverTierAux_success_cells cells c.headers
      { c with headers_list := [c.headers], padding_done := true } c1 0 haux
      (c.headers.length - 1) (by omega) s0 hs0
    omega
  | some e =>
    have he : e = PyErr.indexError :=
      discoverTierAux_err_cells cells c.headers
        { c with headers_list := [c.headers], padding_done := true } 0 e (by rw [haux])
    subst he
    have hout : c1.output = c.output := by
      have hs := discoverTierAux_sameButCols (cells.map PyVal.s) c.headers
        { c with headers_list := [c.headers], padding_done := true } 0
      rw [haux] at hs
      exact (sameButCols_proj hs).2.2.2.2.2.2.2.2.2.2.2.2.2.2.2.2.1
    exact ⟨rfl, hout⟩

theorem update_line_flat_first_err (c : Columnizer) (cells : List String) (fuel : Nat)
    (hflat : c.headers_list = [c.headers]) (hlen : 1 ≤ c.headers.length)
    (hpd : c.padding_done = false)
    (hshort : ∃ s ∈ cells, s.length < c.headers.length) :
    (update fuel c (PyVal.lst (cells.map PyVal.s))).2 = some PyErr.indexError ∧
    (update fuel c (PyVal.lst (cells.map PyVal.s))).1.output = c.output := by
  obtain ⟨herr, hout⟩ := discover_flat_cells_err c cells hflat hlen hshort
  rw [update_eq]
  rw [if_pos hpd]
  rcases hd : discover_padding c (PyVal.lst (cells.map PyVal.s)) with ⟨cd, ed⟩
  rw [hd] at herr hout
  dsimp only at herr hout
  subst herr
  exact ⟨rfl, hout⟩

/-! ### Colorize lemmas for the default colormap -/

theorem pyLower_append (a b : String) : pyLower (a ++ b) = pyLower a ++ pyLower b := by
  obtain ⟨la⟩ := a
  obtain ⟨lb⟩ := b
  show String.mk ((la ++ lb).map Char.toLower) =
    String.mk (la.map Char.toLower) ++ String.mk (lb.map Char.toLower)
  rw [List.map_append]
  rfl

theorem pyLower_length (s : String) : (pyLower s).length = s.length := by
  obtain ⟨l⟩ := s
  show (l.map Char.toLower).length = l.length
  rw [List.length_map]

theorem dropWhile_eq_self_of_head (p : Char → Bool) (l : List Char)
    (h : ∀ ch ∈ l.head?, p ch = false) : l.dropWhile p = l := by
  cases l with
  | nil => rfl
  | cons a t =>
    have ha : p a = false := h a rfl
    simp [List.dropWhile, ha]

theorem pyStrip_eq_self (l : List Char)
    (hh : ∀ ch ∈ l.head?, isPySpace ch = false)
    (hl : ∀ ch ∈ l.getLast?, isPySpace ch = false) :
    pyStrip (String.mk l) = String.mk l := by
  show String.mk (((l.dropWhile isPySpace).reverse.dropWhile isPySpace).reverse) = String.mk l
  rw [dropWhile_eq_self_of_head isPySpace l hh]
  rw [dropWhile_eq_self_of_head isPySpace l.reverse (by
    intro ch hch
    rw [List.head?_reverse] at hch
    exact hl ch hch)]
  rw [List.reverse_reverse]

theorem pyStrip_ansi (mid : String) :
    pyStrip ("\x1b[91m" ++ mid ++ "\x1b[0m") = "\x1b[91m" ++ mid ++ "\x1b[0m" := by
  obtain ⟨l⟩ := mid
  show pyStrip (String.mk ('\x1b' :: '[' :: '9' :: '1' :: 'm' ::
    (l ++ ['\x1b', '[', '0', 'm']))) = _
  rw [pyStrip_eq_self]
  · rfl
  · intro ch hch
    cases hch
    decide
  · intro ch hch
    have : ('\x1b' :: '[' :: '9' :: '1' :: 'm' :: (l ++ ['\x1b', '[', '0', 'm'])) =
        ('\x1b' :: '[' :: '9' :: '1' :: 'm' :: (l ++ ['\x1b', '[', '0'])) ++ ['m'] := by
      simp
    rw [this, List.getLast?_concat] at hch
    cases hch
    decide

theorem wrap_strip_length (w : String) :
    (pyStrip (pyLower ("\x1b[91m" ++ w ++ "\x1b[0m"))).length = 9 + w.length := by
  rw [pyLower_append, pyLower_append]
  have h1 : pyLower "\x1b[91m" = "\x1b[91m" := by decide
  have h2 : pyLower "\x1b[0m" = "\x1b[0m" := by decide
  rw [h1, h2, pyStrip_ansi]
  rw [String.length_append, String.length_append, pyLower_length]
  have h5 : ("\x1b[91m" : String).length = 5 := rfl
  have h4 : ("\x1b[0m" : String).length = 4 := rfl
  omega

theorem matchLoop_fail (w : String) (hfail : pyStrip (pyLower w) = "fail") :
    matchLoop w defaultColormap = "\x1b[91m" ++ w ++ "\x1b[0m" := by
  have hlen := wrap_strip_length w
  have hb1 : pyStrip (pyLower ("\x1b[91m" ++ w ++ "\x1b[0m")) ∉
      ["ok", "pass", "passed", "success", "true", "yes"] := by
    intro hmem
    have hsmall := (show ∀ y ∈ ["ok", "pass", "passed", "success", "true", "yes"],
      String.length y ≤ 7 by decide) _ hmem
    omega
  have hb2 : pyStrip (pyLower ("\x1b[91m" ++ w ++ "\x1b[0m")) ∉ ["warn", "warning"] := by
    intro hmem
    have hsmall := (show ∀ y ∈ ["warn", "warning"], String.length y ≤ 7 by decide) _ hmem
    omega
  have hb3 : pyStrip (pyLower ("\x1b[91m" ++ w ++ "\x1b[0m")) ∉ ([] : List String) := by
    intro hmem
    cases hmem
  unfold matchLoop defaultColormap
  dsimp only
  rw [if_pos (by rw [hfail]; decide)]
  unfold matchLoop
  dsimp only
  rw [if_neg hb1]
  unfold matchLoop
  dsimp only
  rw [if_neg hb2]
  unfold matchLoop
  dsimp only
  rw [if_neg hb3]
  unfold matchLoop
  dsimp only
  rw [if_neg hb3]
  unfold matchLoop
  dsimp only
  rw [if_neg hb3]
  unfold matchLoop
  rfl

theorem matchLoop_no_match (w : String) :
    ∀ cm : List (ColorKey × ColorEntry),
    (∀ p ∈ cm, pyStrip (pyLower w) ∉ p.2.matchWords) →
    matchLoop w cm = w := by
  intro cm
  induction cm with
  | nil => intro _; rfl
  | cons p rest ih =>
    intro h
    unfold matchLoop
    rw [if_neg (h p (by simp))]
    exact ih (fun q hq => h q (by simp [hq]))

theorem pyIndexOf_mem (x : String) :
    ∀ l : List String, x ∈ l → ∃ i, pyIndexOf l x = some i := by
  intro l
  induction l with
  | nil => intro h; cases h
  | cons a t ih =>
    intro h
    unfold pyIndexOf
    by_cases ha : a = x
    · exact ⟨0, by rw [if_pos ha]⟩
    · rcases List.mem_cons.mp h with heq | hmem
      · exact absurd heq.symm ha
      · obtain ⟨i, hi⟩ := ih hmem
        exact ⟨i + 1, by rw [if_neg ha, hi]; rfl⟩

theorem defaultColormap_inr (idx : Nat) :
    colormapLookup defaultColormap (Sum.inr idx) = none := by
  unfold defaultColormap colormapLookup
  rw [if_neg (by simp)]
  unfold colormapLookup
  rw [if_neg (by simp)]
  unfold colormapLookup
  rw [if_neg (by simp)]
  unfold colormapLookup
  rw [if_neg (by simp)]
  unfold colormapLookup
  rw [if_neg (by simp)]
  unfold colormapLookup
  rw [if_neg (by simp)]
  rfl

theorem colorize_default_fail (c : Columnizer) (w : String) (col : String)
    (hcm : c.colormap = defaultColormap)
    (hnocol : colormapLookup c.colormap (Sum.inl col) = none)
    (hmem : col ∈ c.headers)
    (hfail : pyStrip (pyLower w) = "fail") :
    colorize c w col = Except.ok ("\x1b[91m" ++ w ++ "\x1b[0m") := by
  unfold colorize
  rw [hnocol]
  obtain ⟨i, hi⟩ := pyIndexOf_mem col c.headers hmem
  rw [hi]
  dsimp only
  rw [hcm, defaultColormap_inr]
  rw [matchLoop_fail w hfail]

theorem colorize_default_none (c : Columnizer) (w : String) (col : String)
    (hcm : c.colormap = defaultColormap)
    (hnocol : colormapLookup c.colormap (Sum.inl col) = none)
    (hmem : col ∈ c.headers)
    (hnone : ∀ p ∈ defaultColormap, pyStrip (pyLower w) ∉ p.2.matchWords) :
    colorize c w col = Except.ok w := by
  unfold colorize
  rw [hnocol]
  obtain ⟨i, hi⟩ := pyIndexOf_mem col c.headers hmem
  rw [hi]
  dsimp only
  rw [hcm, defaultColormap_inr]
  rw [matchLoop_no_match w defaultColormap hnone]

/-! ### The pipeline treats pending operator input opaquely: every function
up to the pagination pause returns the same printout and the same state
modulo the untouched `stdin` field. -/

theorem _format_column_stdin_fst (b : Columnizer) (st : List String) (col : String) (m : PyVal) :
    (_format_column { b with stdin := st } col m).1 =
      { (_format_column b col m).1 with stdin := st } := by
  rw [_format_column_fst, _format_column_fst]
  dsimp only
  by_cases hgt : (pyStr m).length > (b.column_data col).padding
  · simp only [if_pos hgt]
    rfl
  · simp only [if_neg hgt]

theorem _format_column_stdin_snd (b : Columnizer) (st : List String) (col : String) (m : PyVal) :
    (_format_column { b with stdin := st } col m).2 = (_format_column b col m).2 := by
  unfold _format_column
  dsimp only [setCol]
  by_cases hgt : (pyStr m).length > (b.column_data col).padding
  · simp only [if_pos hgt]
    by_cases hco : b.colorize_output = true
    · simp only [if_pos hco]
      split
      · rename_i mm heqS
        split
        · rename_i mm2 heqB
          have h := heqS.symm.trans heqB
          injection h with h2
          rw [h2]
        · rename_i e2 heqB
          have h := heqS.symm.trans heqB
          cases h
      · rename_i e heqS
        split
        · rename_i mm2 heqB
          have h := heqS.symm.trans heqB
          cases h
        · rename_i e2 heqB
          have h := heqS.symm.trans heqB
          injection h with h2
          rw [h2]
    · simp only [if_neg hco]
  · simp only [if_neg hgt]
    by_cases hco : b.colorize_output = true
    · simp only [if_pos hco]
      split
      · rename_i mm heqS
        split
        · rename_i mm2 heqB
          have h := heqS.symm.trans heqB
          injection h with h2
          rw [h2]
        · rename_i e2 heqB
          have h := heqS.symm.trans heqB
          cases h
      · rename_i e heqS
        split
        · rename_i mm2 heqB
          have h := heqS.symm.trans heqB
          cases h
        · rename_i e2 heqB
          have h := heqS.symm.trans heqB
          injection h with h2
          rw [h2]
    · simp only [if_neg hco]

theorem _format_column_stdin (b : Columnizer) (st : List String) (col : String) (m : PyVal) :
    _format_column { b with stdin := st } col m =
      ({ (_format_column b col m).1 with stdin := st }, (_format_column b col m).2) := by
  have h1 := _format_column_stdin_fst b st col m
  have h2 := _format_column_stdin_snd b st col m
  rcases hx : _format_column { b with stdin := st } col m with ⟨xa, xb⟩
  rw [hx] at h1 h2
  rw [← h1, ← h2]

theorem formatRowAux_stdin (row : PyVal) :
    ∀ (cols : List String) (b : Columnizer) (st : List String) (i : Nat),
    formatRowAux { b with stdin := st } row i cols =
      ({ (formatRowAux b row i cols).1 with stdin := st },
        (formatRowAux b row i cols).2) := by
  intro cols
  induction cols with
  | nil => intro b st i; rfl
  | cons col cols ih =>
    intro b st i
    show (match rowWord row col i with
      | .error e => ({ b with stdin := st }, Except.error e)
      | .ok word =>
        match _format_column { b with stdin := st } col word with
        | (c1, .error e) => (c1, Except.error e)
        | (c1, .ok m) =>
          match formatRowAux c1 row (i + 1) cols with
          | (c2, .error e) => (c2, Except.error e)
          | (c2, .ok ms) => (c2, Except.ok (m :: ms))) = _
    rcases hw : rowWord row col i with e | word
    · simp only [hw]
      show _ = ({ (match rowWord row col i with
        | .error e => (b, Except.error e)
        | .ok word => match _format_column b col word with
          | (c1, .error e) => (c1, Except.error e)
          | (c1, .ok m) =>
            match formatRowAux c1 row (i + 1) cols with
            | (c2, .error e) => (c2, Except.error e)
            | (c2, .ok ms) => (c2, Except.ok (m :: ms))).1 with stdin := st },
        (match rowWord row col i with
        | .error e => (b, Except.error e)
        | .ok word => match _format_column b col word with
          | (c1, .error e) => (c1, Except.error e)
          | (c1, .ok m) =>
            match formatRowAux c1 row (i + 1) cols with
            | (c2, .error e) => (c2, Except.error e)
            | (c2, .ok ms) => (c2, Except.ok (m :: ms))).2)
      simp only [hw]
    · simp only [hw]
      rw [_format_column_stdin]
      show _ = ({ (match rowWord row col i with
        | .error e => (b, Except.error e)
        | .ok word => match _format_column b col word with
          | (c1, .error e) => (c1, Except.error e)
          | (c1, .ok m) =>
            match formatRowAux c1 row (i + 1) cols with
            | (c2, .error e) => (c2, Except.error e)
            | (c2, .ok ms) => (c2, Except.ok (m :: ms))).1 with stdin := st },
        (match rowWord row col i with
        | .error e => (b, Except.error e)
        | .ok word => match _format_column b col word with
          | (c1, .error e) => (c1, Except.error e)
          | (c1, .ok m) =>
            match formatRowAux c1 row (i + 1) cols with
            | (c2, .error e) => (c2, Except.error e)
            | (c2, .ok ms) => (c2, Except.ok (m :: ms))).2)
      simp only [hw]
      rcases hf : _format_column b col word with ⟨c1, r1⟩
      dsimp only
      cases r1 with
      | error e => rfl
      | ok mm =>
        dsimp only
        rw [ih c1 st (i + 1)]
        rcases hfr : formatRowAux c1 row (i + 1) cols with ⟨c2, r2⟩
        dsimp only
        cases r2 with
        | error e => rfl
        | ok ms => rfl

/-! ## The claims -/

/-- C1: the spec claims that feeding the rows `[["a","1"],["bbbbbbbbbb","2"]]`
one at a time through `update` in line mode prints both rows with identical
column boundaries (column 1 at width 10) after a reflow.  In the code this
scenario never gets that far: the first `update` hands the flat row
`["a","1"]` to `discover_padding`, which — because the row already is a
`list` — iterates the two CELLS as if they were rows and indexes each cell
by column position, so `"a"[1]` raises `IndexError` before anything is
printed.  The theorem runs the embedded code on the first row of the claimed
scenario (a two-column table, header labels of length 1, base padding 6) and
shows the call ends in `indexError` with the output still empty. -/
theorem c1_first_line_mode_update_raises_index_error :
    (update 1 (pyInitFlat ["x", "y"] 6 "line" false [] "  " 0 none false false true 30 [])
        (PyVal.lst [PyVal.s "a", PyVal.s "1"])).2 = some PyErr.indexError ∧
    (update 1 (pyInitFlat ["x", "y"] 6 "line" false [] "  " 0 none false false true 30 [])
        (PyVal.lst [PyVal.s "a", PyVal.s "1"])).1.output = [] :=
  ⟨rfl, rfl⟩

/-- C3: reflow never recurses.  For every state whose last header tier is
`self.headers` (every state the constructor can produce), a `_reflow_columns`
pass returns the same result at every reflow budget as at budget zero — the
re-submission of the buffered rows through the `'all'`-mode path never
reaches the reflow continuation again, because discovery over the complete
batch has already raised every column's padding to fit — and the pass leaves
`needs_reflow` cleared. -/
theorem c3_reflow_never_recurses (c : Columnizer) (fuel : Nat)
    (hmem : c.headers ∈ c.headers_list) :
    _reflow_columns fuel c = _reflow_columns 0 c ∧
    (_reflow_columns fuel c).1.needs_reflow = false :=
  _reflow_columns_nobump c fuel hmem

theorem c3_reflow_never_recurses_witness :
    _reflow_columns 5
      { pyInitFlat ["x", "y"] 6 "line" false [] "  " 0 none false false true 30 [] with
          message := [PyVal.lst [PyVal.s "a", PyVal.s "1"],
            PyVal.lst [PyVal.s "bbbbbbbbbb", PyVal.s "2"]],
          padding_done := true,
          needs_reflow := true,
          count := 2 } = _reflow_columns 0
      { pyInitFlat ["x", "y"] 6 "line" false [] "  " 0 none false false true 30 [] with
          message := [PyVal.lst [PyVal.s "a", PyVal.s "1"],
            PyVal.lst [PyVal.s "bbbbbbbbbb", PyVal.s "2"]],
          padding_done := true,
          needs_reflow := true,
          count := 2 } ∧
    (_reflow_columns 5
      { pyInitFlat ["x", "y"] 6 "line" false [] "  " 0 none false false true 30 [] with
          message := [PyVal.lst [PyVal.s "a", PyVal.s "1"],
            PyVal.lst [PyVal.s "bbbbbbbbbb", PyVal.s "2"]],
          padding_done := true,
          needs_reflow := true,
          count := 2 }).1.needs_reflow = false :=
  c3_reflow_never_recurses
    { pyInitFlat ["x", "y"] 6 "line" false [] "  " 0 none false false true 30 [] with
        message := [PyVal.lst [PyVal.s "a", PyVal.s "1"],
          PyVal.lst [PyVal.s "bbbbbbbbbb", PyVal.s "2"]],
        padding_done := true,
        needs_reflow := true,
        count := 2 } 5 (by decide)

/-- C7: when `column_justifications` is not supplied, the justification
`discover_padding` infers for a column is determined by the LAST row of the
examined batch: type `'num'` when that row's raw value for the column parses
as a Python `int`, else `'str'`.  Stated for any table whose header list is
a single flat tier with distinct labels: for every successful discovery and
every column, the stored type equals `"num"` or `"str"` according to an
integer-parse of the last row's value for that column. -/
theorem c7_last_row_determines_type (c c' : Columnizer) (message : PyVal)
    (hflat : c.headers_list = [c.headers]) (hnodup : c.headers.Nodup)
    (hcj : colJustTruthy c.col_just = false)
    (h : discover_padding c message = (c', none)) :
    ∀ i key, c.headers.get? i = some key →
    ∀ rl ∈ (msgRows message).getLast?, ∀ w, rowWord rl key i = Except.ok w →
    typeOf c' key = (if pyIntOk w then "num" else "str") :=
  discover_padding_type_infer c c' message hflat hnodup hcj h

theorem c7_last_row_determines_type_witness :
    typeOf (discover_padding
      (pyInitFlat ["n", "s"] 6 "all" false [] "  " 0 none false false true 30 [])
      (PyVal.lst [PyVal.lst [PyVal.s "42", PyVal.s "ok"],
        PyVal.lst [PyVal.s "7", PyVal.s "x"],
        PyVal.lst [PyVal.s "100", PyVal.s "longer"]])).1 "n" = "num" ∧
    typeOf (discover_padding
      (pyInitFlat ["n", "s"] 6 "all" false [] "  " 0 none false false true 30 [])
      (PyVal.lst [PyVal.lst [PyVal.s "42", PyVal.s "ok"],
        PyVal.lst [PyVal.s "7", PyVal.s "x"],
        PyVal.lst [PyVal.s "100", PyVal.s "longer"]])).1 "s" = "str" := by
  have h := c7_last_row_determines_type
    (pyInitFlat ["n", "s"] 6 "all" false [] "  " 0 none false false true 30 [])
    (discover_padding
      (pyInitFlat ["n", "s"] 6 "all" false [] "  " 0 none false false true 30 [])
      (PyVal.lst [PyVal.lst [PyVal.s "42", PyVal.s "ok"],
        PyVal.lst [PyVal.s "7", PyVal.s "x"],
        PyVal.lst [PyVal.s "100", PyVal.s "longer"]])).1
    (PyVal.lst [PyVal.lst [PyVal.s "42", PyVal.s "ok"],
      PyVal.lst [PyVal.s "7", PyVal.s "x"],
      PyVal.lst [PyVal.s "100", PyVal.s "longer"]])
    rfl (by decide) rfl rfl
  exact ⟨h 0 "n" rfl (PyVal.lst [PyVal.s "100", PyVal.s "longer"]) rfl
      (PyVal.s "100") rfl,
    h 1 "s" rfl (PyVal.lst [PyVal.s "100", PyVal.s "longer"]) rfl
      (PyVal.s "longer") rfl⟩

/-- C9: in line mode, the first `update` with a row supplied as a flat list
of (string) cells passes the row to `discover_padding` unwrapped, so each
cell is treated as a whole row and indexed by column position.  For every
such table with at least two columns and discovery still pending, if any
cell is shorter than the number of columns the call raises `IndexError` and
nothing is printed (the output is unchanged). -/
theorem c9_flat_row_line_mode_index_error (c : Columnizer) (cells : List String)
    (fuel : Nat) ( _hmode : c.mode = "line")
    (hflat : c.headers_list = [c.headers]) (hlen : 2 ≤ c.headers.length)
    (hpd : c.padding_done = false)
    (hshort : ∃ s ∈ cells, s.length < c.headers.length) :
    (update fuel c (PyVal.lst (cells.map PyVal.s))).2 = some PyErr.indexError ∧
    (update fuel c (PyVal.lst (cells.map PyVal.s))).1.output = c.output :=
  update_line_flat_first_err c cells fuel hflat (by omega) hpd hshort

theorem c9_flat_row_line_mode_index_error_witness :
    (update 3 (pyInitFlat ["h1", "h2"] 6 "line" false [] "  " 0 none false false true 30 [])
        (PyVal.lst (["ab", "1"].map PyVal.s))).2 = some PyErr.indexError ∧
    (update 3 (pyInitFlat ["h1", "h2"] 6 "line" false [] "  " 0 none false false true 30 [])
        (PyVal.lst (["ab", "1"].map PyVal.s))).1.output =
      (pyInitFlat ["h1", "h2"] 6 "line" false [] "  " 0 none false false true 30 []).output :=
  c9_flat_row_line_mode_index_error
    (pyInitFlat ["h1", "h2"] 6 "line" false [] "  " 0 none false false true 30 [])
    ["ab", "1"] 3 rfl rfl (by decide) rfl (by decide)

/-- C10: no operation resets or decreases a stored column padding.  Per
`update` call the padding of every column is monotone; over a whole run the
padding at any earlier point bounds the padding at any later point (so the
pagination reset, which only clears `message` and `padding_done`, leaves
`column_data` untouched); and on any table built by the constructor every
column padding stays at or above `base_padding` for the entire lifetime. -/
theorem c10_padding_monotone_lifetime (fuel : Nat) :
    (∀ (c : Columnizer) (m : PyVal) (k : String),
      padOf c k ≤ padOf (update fuel c m).1 k) ∧
    (∀ (c : Columnizer) (l1 l2 : List PyVal) (k : String),
      padOf (runSteps fuel c l1) k ≤ padOf (runSteps fuel c (l1 ++ l2)) k) ∧
    (∀ (headers : List String) (bp : Nat) (mode : String) (cz : Bool)
      (cm : List (ColorKey × ColorEntry)) (delim : String) (ind : Nat)
      (cj : Option (List String)) (pag pb ph : Bool) (th : Nat)
      (stdin : List String) (msgs : List PyVal) (k : String),
      bp ≤ padOf (runSteps fuel
        (pyInitFlat headers bp mode cz cm delim ind cj pag pb ph th stdin) msgs) k) := by
  refine ⟨fun c m k => ((presSys fuel).2.2.1 c m).1.2 k, ?_, ?_⟩
  · intro c l1 l2 k
    rw [runSteps_append]
    exact (runSteps_pres fuel l2 (runSteps fuel c l1)).2 k
  · intro headers bp mode cz cm delim ind cj pag pb ph th stdin msgs k
    exact (runSteps_pres fuel msgs
      (pyInitFlat headers bp mode cz cm delim ind cj pag pb ph th stdin)).2 k

/-- C2: within one generation (a fresh discovery over `'all'`-mode batches),
at every point of the run each stored column padding is at least the
stringified length of every raw value observed so far for that column and at
least the header label length (once a first nonempty batch has run), and the
padding never decreases from any point of the run to any later point. -/
theorem c2_padding_covers_values_and_labels (fuel : Nat) (c : Columnizer)
    (pre post : List (List PyVal))
    (hmode : c.mode = "all") (hmem : c.headers ∈ c.headers_list)
    (hpd : c.padding_done = false)
    (hok : runOk fuel c ((pre ++ post).map PyVal.lst) = true) :
    (∀ b ∈ pre, ∀ r ∈ b, ∀ i key w, c.headers.get? i = some key →
      rowWord r key i = Except.ok w →
      (pyStr w).length ≤ padOf (runSteps fuel c (pre.map PyVal.lst)) key) ∧
    (∀ b0, pre.head? = some b0 → b0 ≠ [] →
      ∀ i key, c.headers.get? i = some key →
      key.length ≤ padOf (runSteps fuel c (pre.map PyVal.lst)) key) ∧
    (∀ k, padOf (runSteps fuel c (pre.map PyVal.lst)) k ≤
      padOf (runSteps fuel c ((pre ++ post).map PyVal.lst)) k) := by
  have hmap : (pre ++ post).map PyVal.lst = pre.map PyVal.lst ++ post.map PyVal.lst :=
    List.map_append _ _ _
  rw [hmap] at hok
  obtain ⟨hok1, hok2⟩ := runOk_append fuel _ _ c hok
  refine ⟨?_, ?_, ?_⟩
  · exact fun b hb r hr i key w hkey hww =>
      runCoverAux fuel pre c hmode hok1 b hb r hr i key w hkey hww
  · intro b0 hb0 hne i key hkey
    cases pre with
    | nil => cases hb0
    | cons bh bt =>
      have hbh : bh = b0 := Option.some.inj hb0
      have h2 : (match update fuel c (PyVal.lst bh) with
          | (c1, none) => runOk fuel c1 (bt.map PyVal.lst)
          | (_, some _) => false) = true := hok1
      rcases hu : update fuel c (PyVal.lst bh) with ⟨c1, e1⟩
      rw [hu] at h2
      cases e1 with
      | some e => cases h2
      | none =>
        have hlab := (update_cover_all fuel c c1 bh hmode hu).2 hpd hmem
          (by rw [hbh]; exact hne) i key hkey
        have hrs : runSteps fuel c ((bh :: bt).map PyVal.lst) =
            runSteps fuel c1 (bt.map PyVal.lst) := by
          show runSteps fuel (update fuel c (PyVal.lst bh)).1 (bt.map PyVal.lst) = _
          rw [hu]
        rw [hrs]
        exact le_trans hlab ((runSteps_pres fuel (bt.map PyVal.lst) c1).2 key)
  · intro k
    rw [hmap, runSteps_append]
    exact (runSteps_pres fuel (post.map PyVal.lst)
      (runSteps fuel c (pre.map PyVal.lst))).2 k

theorem c2_padding_covers_values_and_labels_witness :
    (pyStr (PyVal.s "12345")).length ≤
      padOf (runSteps 1
        (pyInitFlat ["n", "s"] 3 "all" false [] "  " 0 none false false true 30 [])
        ([[PyVal.lst [PyVal.s "42", PyVal.s "ok"]],
          [PyVal.lst [PyVal.s "12345", PyVal.s "x"]]].map PyVal.lst)) "n" := by
  have h := c2_padding_covers_values_and_labels 1
    (pyInitFlat ["n", "s"] 3 "all" false [] "  " 0 none false false true 30 [])
    [[PyVal.lst [PyVal.s "42", PyVal.s "ok"]],
      [PyVal.lst [PyVal.s "12345", PyVal.s "x"]]] []
    rfl (by decide) rfl rfl
  exact h.1 [PyVal.lst [PyVal.s "12345", PyVal.s "x"]] (by simp)
    (PyVal.lst [PyVal.s "12345", PyVal.s "x"]) (by simp)
    0 "n" (PyVal.s "12345") rfl rfl

/-- C4: the pagination reset is unconditional.  Whenever a printed row
triggers the pagination condition (`paginate` set and buffered rows plus 7
exceeding the terminal height) and `_update_line` returns without an
exception and without a reflow, the resulting state has `message = []` and
`padding_done = false` — with no hypothesis on `print_header`, i.e. the
buffer clearing and forced layout rediscovery happen whether or not headers
are printed, contradicting the claim that they happen only when
`print_header` is enabled. -/
theorem c4_pagination_reset_unconditional (fuel : Nat) (c : Columnizer)
    (row : PyVal)
    (hnr : c.needs_reflow = false) (hfits : RowFits c row)
    (hpag : c.paginate = true)
    (hlen : c.message.length + 1 + 7 > c.term_height)
    (hok : (_update_line fuel c row).2 = none) :
    (_update_line fuel c row).1.message = [] ∧
    (_update_line fuel c row).1.padding_done = false := by
  have hfr0 : (formatRowAux { c with
      count := c.count + 1,
      message := c.message ++ [row] } row 0 c.headers).1 =
      { c with count := c.count + 1, message := c.message ++ [row] } := by
    refine formatRowAux_fit row c.headers _ 0 ?_
    intro j key hj w hww
    rw [Nat.zero_add] at hww
    exact hfits j key w hj hww
  rcases hfr : formatRowAux { c with
      count := c.count + 1,
      message := c.message ++ [row] } row 0 c.headers with ⟨c1, r1⟩
  rw [hfr] at hfr0
  dsimp only at hfr0
  rw [_update_line_eq] at hok ⊢
  dsimp only at hok ⊢
  rw [hfr] at hok ⊢
  subst hfr0
  cases r1 with
  | error e =>
    dsimp only at hok
    exact Option.noConfusion hok
  | ok cells =>
    have hcond : ({ c with
        count := c.count + 1,
        message := c.message ++ [row] } : Columnizer).needs_reflow = false := hnr
    dsimp only at hok ⊢
    simp only [if_pos hcond] at hok ⊢
    split at hok
    · rename_i hcnd
      simp only [if_pos hcnd]
      split
      · rename_i c5 e hblk
        rw [hblk] at hok
        dsimp only at hok
        exact Option.noConfusion hok
      · exact ⟨rfl, rfl⟩
    · rename_i hcnd
      refine absurd ⟨?_, ?_⟩ hcnd
      · exact hpag
      · show (c.message ++ [row]).length + 7 > c.term_height
        simp only [List.length_append, List.length_singleton]
        omega

theorem c4_pagination_reset_unconditional_witness :
    (_update_line 1 (pyInitFlat ["h"] 6 "line" false [] "  " 0 none true false false 7 [])
      (PyVal.lst [PyVal.s "55"])).1.message = [] ∧
    (_update_line 1 (pyInitFlat ["h"] 6 "line" false [] "  " 0 none true false false 7 [])
      (PyVal.lst [PyVal.s "55"])).1.padding_done = false :=
  c4_pagination_reset_unconditional 1
    (pyInitFlat ["h"] 6 "line" false [] "  " 0 none true false false 7 [])
    (PyVal.lst [PyVal.s "55"]) rfl
    (by
      intro i key w hkey hww
      cases i with
      | zero =>
        injection hkey with h1
        subst h1
        injection hww with h2
        subst h2
        decide
      | succ n =>
        have h0 : ([ "h" ] : List String).get? (n + 1) = some key := hkey
        rw [List.get?_cons_succ, List.get?_nil] at h0
        exact Option.noConfusion h0
    )
    rfl (by decide) rfl

/-- C4 (counterexample): a run with `print_header` DISABLED in which a
pagination reset nevertheless clears the buffer and `padding_done`, and the
next row re-runs discovery, flipping the inferred column type from `num` to
`str` — the layout IS rediscovered across the pagination boundary although
`print_header` is off, refuting the claimed `print_header`-conditionality. -/
theorem c4_reset_without_print_header_counterexample :
    (pyInitFlat ["h"] 1 "line" false [] "  " 0 none true false false 7 []).print_header
      = false ∧
    (update 1 (pyInitFlat ["h"] 1 "line" false [] "  " 0 none true false false 7 [])
      (PyVal.lst [PyVal.s "5"])).2 = none ∧
    typeOf (update 1 (pyInitFlat ["h"] 1 "line" false [] "  " 0 none true false false 7 [])
      (PyVal.lst [PyVal.s "5"])).1 "h" = "num" ∧
    (update 1 (pyInitFlat ["h"] 1 "line" false [] "  " 0 none true false false 7 [])
      (PyVal.lst [PyVal.s "5"])).1.padding_done = false ∧
    (update 1 (pyInitFlat ["h"] 1 "line" false [] "  " 0 none true false false 7 [])
      (PyVal.lst [PyVal.s "5"])).1.message = [] ∧
    typeOf (update 1
      (update 1 (pyInitFlat ["h"] 1 "line" false [] "  " 0 none true false false 7 [])
        (PyVal.lst [PyVal.s "5"])).1
      (PyVal.lst [PyVal.s "x"])).1 "h" = "str" :=
  ⟨rfl, rfl, rfl, rfl, rfl, rfl⟩

/-- C5 (counterexample): a table constructed with the explicit column
justification list `["right"]` renders the purely numeric value `5` LEFT
justified (`"5     "`): the override `right` is copied verbatim into the
column type, and rendering right-justifies only the type `num`, so the
claimed "column overridden to right is right-justified" fails. -/
theorem c5_right_override_renders_left_counterexample :
    (pyInitFlat ["h"] 6 "line" false [] "  " 0 (some ["right"]) false false false 30 []).col_just
      = some ["right"] ∧
    (update 1 (pyInitFlat ["h"] 6 "line" false [] "  " 0 (some ["right"]) false false false 30 [])
      (PyVal.lst [PyVal.s "5"])).2 = none ∧
    typeOf (update 1
      (pyInitFlat ["h"] 6 "line" false [] "  " 0 (some ["right"]) false false false 30 [])
      (PyVal.lst [PyVal.s "5"])).1 "h" = "right" ∧
    (update 1 (pyInitFlat ["h"] 6 "line" false [] "  " 0 (some ["right"]) false false false 30 [])
      (PyVal.lst [PyVal.s "5"])).1.output = ["5     "] :=
  ⟨rfl, rfl, rfl, rfl⟩

/-- C5 (amended): when an explicit `column_justifications` list is supplied,
inference is bypassed and each entry is copied VERBATIM into the stored
column type, and rendering right-justifies exactly the columns whose stored
type is the string `num` — every other entry (`right` and `left` included)
renders left-justified. -/
theorem c5_col_just_copied_verbatim_num_right (c c' : Columnizer) (message : PyVal)
    (hflat : c.headers_list = [c.headers]) (hnodup : c.headers.Nodup)
    (hcj : colJustTruthy c.col_just = true)
    (hne : msgRows message ≠ [])
    (h : discover_padding c message = (c', none)) :
    (∀ i key, c.headers.get? i = some key →
      ∀ jv, (c.col_just.getD []).get? i = some jv → typeOf c' key = jv) ∧
    (∀ col m, c'.colorize_output = false → (pyStr m).length ≤ padOf c' col →
      (_format_column c' col m).2 = Except.ok (if typeOf c' col = "num"
        then rjust (pyStr m) (padOf c' col)
        else ljust (pyStr m) (padOf c' col))) := by
  refine ⟨discover_padding_type_just c c' message hflat hnodup hcj hne h, ?_⟩
  intro col m hco hfit
  exact _format_column_snd_plain c' col m hco hfit

theorem c5_col_just_copied_verbatim_num_right_witness :
    typeOf (discover_padding
      (pyInitFlat ["h"] 6 "line" false [] "  " 0 (some ["right"]) false false false 30 [])
      (PyVal.lst [PyVal.s "5"])).1 "h" = "right" ∧
    (_format_column (discover_padding
      (pyInitFlat ["h"] 6 "line" false [] "  " 0 (some ["right"]) false false false 30 [])
      (PyVal.lst [PyVal.s "5"])).1 "h" (PyVal.s "5")).2 = Except.ok "5     " := by
  have h := c5_col_just_copied_verbatim_num_right
    (pyInitFlat ["h"] 6 "line" false [] "  " 0 (some ["right"]) false false false 30 [])
    (discover_padding
      (pyInitFlat ["h"] 6 "line" false [] "  " 0 (some ["right"]) false false false 30 [])
      (PyVal.lst [PyVal.s "5"])).1
    (PyVal.lst [PyVal.s "5"])
    rfl (by decide) rfl (List.cons_ne_nil _ _) rfl
  refine ⟨h.1 0 "h" rfl "right" rfl, ?_⟩
  rw [h.2 "h" (PyVal.s "5") rfl (by decide)]
  rfl

/-- C6 (counterexample): during a pagination pause, the operator input `q`
does NOT terminate the process: the run with pending input `"q"` prints
exactly the same lines as the run with empty input — including the row fed
AFTER the pause — and completes without an exception. -/
theorem c6_quit_sentinel_ignored_counterexample :
    (runSteps 1 (pyInitFlat ["h"] 1 "line" false [] "  " 0 none true true false 8 ["q"])
      [PyVal.lst [PyVal.s "a"], PyVal.lst [PyVal.s "b"], PyVal.lst [PyVal.s "d"]]).output =
      ["a", "b", "\nlines 0-2 ", "Enter to continue, CTRL+C to quit", "", "d"] ∧
    (runSteps 1 (pyInitFlat ["h"] 1 "line" false [] "  " 0 none true true false 8 [""])
      [PyVal.lst [PyVal.s "a"], PyVal.lst [PyVal.s "b"], PyVal.lst [PyVal.s "d"]]).output =
      ["a", "b", "\nlines 0-2 ", "Enter to continue, CTRL+C to quit", "", "d"] ∧
    runOk 1 (pyInitFlat ["h"] 1 "line" false [] "  " 0 none true true false 8 ["q"])
      [PyVal.lst [PyVal.s "a"], PyVal.lst [PyVal.s "b"], PyVal.lst [PyVal.s "d"]] = true :=
  ⟨rfl, rfl, rfl⟩

/-- C6 (amended): the pagination pause reads one line of operator input and
discards its value (the source calls `input(...)` only for its blocking side
effect): whenever a row triggers the pause (paginate and paginate_break
enabled, buffered rows past the terminal height) and the run continues with
SOME pending input line `s`, then with ANY pending input line `t` — the
sentinel `q` included — the call returns the identical state and printout
and likewise continues; no input value terminates the process. -/
theorem c6_input_discarded_run_continues (fuel : Nat) (b : Columnizer)
    (row : PyVal) (s t : String) (rest : List String)
    (hnr : b.needs_reflow = false) (hfits : RowFits b row)
    (hpag : b.paginate = true) (hpb : b.paginate_break = true)
    (hlen : b.message.length + 1 + 7 > b.term_height)
    (hok : (_update_line fuel { b with stdin := s :: rest } row).2 = none) :
    _update_line fuel { b with stdin := s :: rest } row =
      _update_line fuel { b with stdin := t :: rest } row ∧
    (_update_line fuel { b with stdin := t :: rest } row).2 = none := by
  have hfr0 : (formatRowAux { b with count := b.count + 1, message := b.message ++ [row] }
      row 0 b.headers).1 = { b with count := b.count + 1, message := b.message ++ [row] } := by
    refine formatRowAux_fit row b.headers _ 0 ?_
    intro j key hj w hww
    rw [Nat.zero_add] at hww
    exact hfits j key w hj hww
  have hs : formatRowAux { b with
        count := b.count + 1, message := b.message ++ [row], stdin := s :: rest } row 0 b.headers
      = ({ b with count := b.count + 1, message := b.message ++ [row], stdin := s :: rest },
         (formatRowAux { b with count := b.count + 1, message := b.message ++ [row] }
           row 0 b.headers).2) := by
    have h1 : formatRowAux { b with
          count := b.count + 1, message := b.message ++ [row], stdin := s :: rest } row 0 b.headers
        = formatRowAux { { b with count := b.count + 1, message := b.message ++ [row] } with
            stdin := s :: rest } row 0 b.headers := rfl
    rw [h1, formatRowAux_stdin row b.headers
      { b with count := b.count + 1, message := b.message ++ [row] } (s :: rest) 0, hfr0]
  have ht : formatRowAux { b with
        count := b.count + 1, message := b.message ++ [row], stdin := t :: rest } row 0 b.headers
      = ({ b with count := b.count + 1, message := b.message ++ [row], stdin := t :: rest },
         (formatRowAux { b with count := b.count + 1, message := b.message ++ [row] }
           row 0 b.headers).2) := by
    have h1 : formatRowAux { b with
          count := b.count + 1, message := b.message ++ [row], stdin := t :: rest } row 0 b.headers
        = formatRowAux { { b with count := b.count + 1, message := b.message ++ [row] } with
            stdin := t :: rest } row 0 b.headers := rfl
    rw [h1, formatRowAux_stdin row b.headers
      { b with count := b.count + 1, message := b.message ++ [row] } (t :: rest) 0, hfr0]
  have hmain : _update_line fuel { b with stdin := s :: rest } row =
      _update_line fuel { b with stdin := t :: rest } row := by
    rw [_update_line_eq fuel { b with stdin := s :: rest } row] at hok
    rw [_update_line_eq fuel { b with stdin := s :: rest } row,
        _update_line_eq fuel { b with stdin := t :: rest } row]
    dsimp only at hok ⊢
    rw [hs] at hok ⊢
    rw [ht]
    rcases hcells : (formatRowAux { b with count := b.count + 1, message := b.message ++ [row] }
        row 0 b.headers).2 with e | cells
    · rw [hcells] at hok
      dsimp only at hok
      exact Option.noConfusion hok
    · dsimp only
      have hcond2 : b.paginate = true ∧ (b.message ++ [row]).length + 7 > b.term_height :=
        ⟨hpag, by simp only [List.length_append, List.length_singleton]; omega⟩
      dsimp only [pr]
      simp only [if_pos hnr, if_pos hcond2, if_pos hpb]
      dsimp only [pyInput, pr]
      rfl
  exact ⟨hmain, by rw [← hmain]; exact hok⟩

theorem c6_input_discarded_run_continues_witness :
    _update_line 1 { pyInitFlat ["h"] 6 "line" false [] "  " 0 none true true false 7 [] with
        stdin := "q" :: [] } (PyVal.lst [PyVal.s "55"]) =
      _update_line 1 { pyInitFlat ["h"] 6 "line" false [] "  " 0 none true true false 7 [] with
        stdin := "typed something else" :: [] } (PyVal.lst [PyVal.s "55"]) ∧
    (_update_line 1 { pyInitFlat ["h"] 6 "line" false [] "  " 0 none true true false 7 [] with
        stdin := "typed something else" :: [] } (PyVal.lst [PyVal.s "55"])).2 = none :=
  c6_input_discarded_run_continues 1
    (pyInitFlat ["h"] 6 "line" false [] "  " 0 none true true false 7 [])
    (PyVal.lst [PyVal.s "55"]) "q" "typed something else" [] rfl
    (by
      intro i key w hkey hww
      cases i with
      | zero =>
        injection hkey with h1
        subst h1
        injection hww with h2
        subst h2
        decide
      | succ n =>
        have h0 : ([ "h" ] : List String).get? (n + 1) = some key := hkey
        rw [List.get?_cons_succ, List.get?_nil] at h0
        exact Option.noConfusion h0
    )
    rfl rfl (by decide) rfl

/-- C8: with colorize enabled and the default color rules, for any column
whose name carries no column-keyed rule: a value whose trimmed lowercased
text is `fail` is wrapped in exactly the fail color (`ESC[91m` ... `ESC[0m`)
and no other, and a value whose trimmed lowercased text appears in no rule
match set receives no ANSI codes at all. -/
theorem c8_default_colormap_fail_and_plain (c : Columnizer) (w col : String)
    (hcm : c.colormap = defaultColormap)
    (hnocol : colormapLookup c.colormap (Sum.inl col) = none)
    (hmem : col ∈ c.headers) :
    (pyStrip (pyLower w) = "fail" →
      colorize c w col = Except.ok ("\x1b[91m" ++ w ++ "\x1b[0m")) ∧
    ((∀ p ∈ defaultColormap, pyStrip (pyLower w) ∉ p.2.matchWords) →
      colorize c w col = Except.ok w) :=
  ⟨fun hfail => colorize_default_fail c w col hcm hnocol hmem hfail,
   fun hnone => colorize_default_none c w col hcm hnocol hmem hnone⟩

theorem c8_default_colormap_fail_and_plain_witness :
    colorize (pyInitFlat ["status"] 6 "line" true [] "  " 0 none false false true 30 [])
      "  FAIL " "status" = Except.ok ("\x1b[91m" ++ "  FAIL " ++ "\x1b[0m") ∧
    colorize (pyInitFlat ["status"] 6 "line" true [] "  " 0 none false false true 30 [])
      "hello " "status" = Except.ok "hello " :=
  ⟨(c8_default_colormap_fail_and_plain
      (pyInitFlat ["status"] 6 "line" true [] "  " 0 none false false true 30 [])
      "  FAIL " "status" rfl rfl (by decide)).1 (by decide),
   (c8_default_colormap_fail_and_plain
      (pyInitFlat ["status"] 6 "line" true [] "  " 0 none false false true 30 [])
      "hello " "status" rfl rfl (by decide)).2 (by
        intro p hp
        simp only [defaultColormap, List.mem_cons, List.not_mem_nil, or_false] at hp
        rcases hp with h | h | h | h | h | h <;> subst h <;> decide)⟩
